import Mathlib

/-!
Verification of the BooleanInterpreter (`src/BooleanInterpreter/Interpreter.py`):
a single-pass recursive-descent parser/evaluator for propositional formulas over
`T`, `F`, `~`, `^`, `v`, `->`, parentheses and the terminator `.`.

The Python source is shallowly embedded below:
* `Lexer` is the lexical analyzer (text, cursor `pos`, cached `currentChar`);
  its `while` loops are translated with an explicit fuel argument; the public
  wrappers instantiate the fuel with a bound that provably always suffices.
* `PState` is the interpreter state (lexer, one-token lookahead `currentToken`,
  evaluation `stack`); the nine grammar methods are mutually recursive on fuel.
  Python's `raise` is modelled with `Except`, its exception payloads with `PErr`.
* `trace` is a ghost field in `PState` recording, at every combine step
  (the pop/pop/push of a tail rule or the pop/push of NOT), the stack depth
  right before the pops.  It never influences control flow; it exists so the
  order of combines relative to recursive tail calls is observable.
-/

namespace BoolInterp

/-- Token type tags; the Python source uses the strings
`'EOF' 'TRUE' 'FALSE' 'AND' 'OR' 'IMPLIES' 'NOT' 'LPAREN' 'RPAREN'`. -/
inductive TokType where
  | EOF | TRUE | FALSE | AND | OR | IMPLY | NOT | LPAREN | RPAREN
  deriving DecidableEq, Repr

/-- The Python type-tag string of a token type (used in error diagnostics). -/
def TokType.str : TokType → String
  | .EOF => "EOF"
  | .TRUE => "TRUE"
  | .FALSE => "FALSE"
  | .AND => "AND"
  | .OR => "OR"
  | .IMPLY => "IMPLIES"
  | .NOT => "NOT"
  | .LPAREN => "LPAREN"
  | .RPAREN => "RPAREN"

/-- `Token(type, value)` from the source. -/
structure Token where
  type : TokType
  value : String
  deriving DecidableEq, Repr

/-- The exceptions the Python code can raise.
`expErr e g` is `Exception("Expecting e, got g instead.")` (`g = none` renders
Python's `None`); `invalidChar g` is `Exception("Invalid character: g")`;
`typeErr` is the `TypeError` from `str + None` in `Lexer.implies`;
`indexErr` is the `IndexError` from `text[0]` on empty text;
`popEmpty` is the `IndexError` from `list.pop()` on an empty list;
`noFuel` is not a Python error: it signals loop/recursion fuel exhaustion in
this embedding (the termination theorems show it is avoidable). -/
inductive PErr where
  | expErr (expecting : String) (got : Option String)
  | invalidChar (got : Option String)
  | typeErr
  | indexErr
  | popEmpty
  | noFuel
  deriving DecidableEq, Repr

/-- Selection-set diagnostic strings, verbatim from the source constants. -/
def BOOL_LIST : String := "~ , T, F, or ("

def IMPLY_LIST : String := "~, T, F ("

def IMPLY_TAIL_LIST : String := "->, ., )"

def OR_LIST : String := "~, T, F, ("

def OR_TAIL_LIST : String := "v, ->, ., )"

def AND_LIST : String := "~, T, F, ("

def AND_TAIL_LIST : String := "^, v, ->, ., )"

def LITERAL_LIST : String := "T, F, (, ~"

def ATOM_LIST : String := "T, F, ~, ("

/-- `Lexer`: input text, cursor `pos`, cached `current_char`. -/
structure Lexer where
  text : List Char
  pos : Nat
  currentChar : Option Char
  deriving DecidableEq, Repr

/-- `Lexer.__init__`: `self.current_char = text[self.pos]` raises `IndexError`
on empty text; otherwise caches the first character. -/
def Lexer.init (text : List Char) : Except PErr Lexer :=
  match text with
  | [] => .error .indexErr
  | c :: cs => .ok ⟨c :: cs, 0, some c⟩

/-- `Lexer.advance`: `pos += 1`; `current_char` is `text[pos]` when
`pos <= len(text)-1`, else `None` (`getElem?` captures both cases). -/
def Lexer.advance (l : Lexer) : Lexer :=
  { l with pos := l.pos + 1, currentChar := l.text[l.pos + 1]? }

/-- `Lexer.implies`: read `current_char`, advance, append the next
`current_char` (Python `str + None` is a `TypeError` when either is `None`),
succeed only on the exact text `->`. -/
def Lexer.implies (l : Lexer) : Except PErr (String × Lexer) :=
  match l.currentChar with
  | none => .error .typeErr
  | some c =>
    match l.advance.currentChar with
    | none => .error .typeErr
    | some c2 =>
      if String.mk [c, c2] = "->" then .ok (String.mk [c, c2], l.advance.advance)
      else .error (.expErr "->" (some (String.mk [c, c2])))

/-- `Lexer.skip_whitespace` with explicit loop fuel. -/
def skipWsF : Nat → Lexer → Except PErr Lexer
  | 0, _ => .error .noFuel
  | n + 1, l =>
    match l.currentChar with
    | some c => if c.isWhitespace then skipWsF n l.advance else .ok l
    | none => .ok l

/-- `Lexer.skip_whitespace`; the fuel `text.length + 3` provably suffices
from every lexer state. -/
def Lexer.skipWhitespace (l : Lexer) : Except PErr Lexer :=
  skipWsF (l.text.length + 3) l

/-- One iteration step of `Lexer.get_next_token`'s `while` loop, with fuel for
the `continue` after whitespace skipping.  Branch order follows the source:
the loop guard `current_char is not EOF_VAL` first, then the `None` check,
whitespace, `^`, `v`, `-`, `~`, `T`, `F`, `(`, `)`, invalid character.
On `.` the loop exits and returns `Token(EOF, '.')` without advancing. -/
def gntF : Nat → Lexer → Except PErr (Token × Lexer)
  | 0, _ => .error .noFuel
  | n + 1, l =>
    if l.currentChar = some '.' then
      .ok (⟨.EOF, "."⟩, l)
    else
      match l.currentChar with
      | none => .error (.expErr "." none)
      | some c =>
        if c.isWhitespace then
          match l.skipWhitespace with
          | .error e => .error e
          | .ok l1 => gntF n l1
        else if c = '^' then .ok (⟨.AND, "^"⟩, l.advance)
        else if c = 'v' then .ok (⟨.OR, "v"⟩, l.advance)
        else if c = '-' then
          match l.implies with
          | .error e => .error e
          | .ok (s, l1) => .ok (⟨.IMPLY, s⟩, l1)
        else if c = '~' then .ok (⟨.NOT, "~"⟩, l.advance)
        else if c = 'T' then .ok (⟨.TRUE, "T"⟩, l.advance)
        else if c = 'F' then .ok (⟨.FALSE, "F"⟩, l.advance)
        else if c = '(' then .ok (⟨.LPAREN, "("⟩, l.advance)
        else if c = ')' then .ok (⟨.RPAREN, ")"⟩, l.advance)
        else .error (.invalidChar (some (String.mk [c])))

/-- `Lexer.get_next_token`; after one whitespace skip the next iteration
always returns or raises, so outer fuel `3` provably suffices. -/
def Lexer.getNextToken (l : Lexer) : Except PErr (Token × Lexer) :=
  gntF 3 l

/-- Ghost trace events: a combine step of a grammar rule, tagged with the
stack depth immediately before its pops. -/
inductive Ev where
  | andC (d : Nat)
  | orC (d : Nat)
  | impC (d : Nat)
  | notC (d : Nat)
  deriving DecidableEq, Repr

/-- Interpreter state: the bound lexer, the one-token lookahead
`current_token`, the evaluation `stack` (head = top), and the ghost combine
`trace` (not present in the source; it records combine events only). -/
structure PState where
  lexer : Lexer
  currentToken : Token
  stack : List Bool
  trace : List Ev
  deriving DecidableEq, Repr

/-- `self.stack.append(b)`. -/
def spush (b : Bool) (s : PState) : PState :=
  { s with stack := b :: s.stack }

/-- `self.stack.pop()`: `IndexError` on an empty list. -/
def spop (s : PState) : Except PErr (Bool × PState) :=
  match s.stack with
  | [] => .error .popEmpty
  | b :: rest => .ok (b, { s with stack := rest })

/-- Append a ghost combine event (no counterpart in the source). -/
def emit (e : Ev) (s : PState) : PState :=
  { s with trace := s.trace ++ [e] }

/-- `Interpreter.eat`: on a type match fetch the next token, otherwise raise
`Expecting tokenType, got currentType instead`. -/
def eat (tt : TokType) (s : PState) : Except PErr PState :=
  if s.currentToken.type = tt then
    match s.lexer.getNextToken with
    | .error e => .error e
    | .ok (t, l') => .ok { s with lexer := l', currentToken := t }
  else .error (.expErr tt.str (some s.currentToken.type.str))

mutual

/-- `Interpreter.atom`: `<A> := T | F | (<IT>)`. -/
def atomF : Nat → PState → Except PErr (Bool × PState)
  | 0, _ => .error .noFuel
  | fuel + 1, s =>
    if s.currentToken.type = .TRUE then
      match eat .TRUE s with
      | .error e => .error e
      | .ok s1 => .ok (true, spush true s1)
    else if s.currentToken.type = .FALSE then
      match eat .FALSE s with
      | .error e => .error e
      | .ok s1 => .ok (true, spush false s1)
    else if s.currentToken.type = .LPAREN then
      match eat .LPAREN s with
      | .error e => .error e
      | .ok s1 =>
        match implyTermF fuel s1 with
        | .error e => .error e
        | .ok (b, s2) =>
          if b then
            if s2.currentToken.type = .RPAREN then
              match eat .RPAREN s2 with
              | .error e => .error e
              | .ok s3 => .ok (true, s3)
            else .ok (false, s2)
          else .ok (false, s2)
    else .error (.expErr ATOM_LIST (some s.currentToken.value))

/-- `Interpreter.literal`: `<L> := ~<L> | <A>`; when `atom` returns `False`
the `else` branch raises with `LITERAL_LIST`. -/
def literalF : Nat → PState → Except PErr (Bool × PState)
  | 0, _ => .error .noFuel
  | fuel + 1, s =>
    if s.currentToken.type = .NOT then
      match eat .NOT s with
      | .error e => .error e
      | .ok s1 =>
        match literalF fuel s1 with
        | .error e => .error e
        | .ok (b, s2) =>
          if b then
            match spop (emit (.notC s2.stack.length) s2) with
            | .error e => .error e
            | .ok (t, s3) => .ok (true, spush (!t) s3)
          else .ok (false, s2)
    else
      match atomF fuel s with
      | .error e => .error e
      | .ok (b, s1) =>
        if b then .ok (true, s1)
        else .error (.expErr LITERAL_LIST (some s1.currentToken.value))

/-- `Interpreter.and_tail`: `<AT_Tail> := ^ <L> <AT_Tail> | ε`; the combine
(pop, pop, push of `and`) happens before the recursive tail call. -/
def andTailF : Nat → PState → Except PErr (Bool × PState)
  | 0, _ => .error .noFuel
  | fuel + 1, s =>
    if s.currentToken.type = .AND then
      match eat .AND s with
      | .error e => .error e
      | .ok s1 =>
        match literalF fuel s1 with
        | .error e => .error e
        | .ok (b, s2) =>
          if b then
            match spop (emit (.andC s2.stack.length) s2) with
            | .error e => .error e
            | .ok (t2, s3) =>
              match spop s3 with
              | .error e => .error e
              | .ok (t1, s4) =>
                match andTailF fuel (spush (t1 && t2) s4) with
                | .error e => .error e
                | .ok (b2, s5) => .ok (b2, s5)
          else .ok (false, s2)
    else if s.currentToken.type = .EOF ∨ s.currentToken.type = .RPAREN ∨
        s.currentToken.type = .OR ∨ s.currentToken.type = .IMPLY then
      .ok (true, s)
    else .error (.expErr AND_TAIL_LIST (some s.currentToken.value))

/-- `Interpreter.and_term`: `<AT> := <L><AT_Tail>`. -/
def andTermF : Nat → PState → Except PErr (Bool × PState)
  | 0, _ => .error .noFuel
  | fuel + 1, s =>
    match literalF fuel s with
    | .error e => .error e
    | .ok (b, s1) =>
      if b then
        match andTailF fuel s1 with
        | .error e => .error e
        | .ok (b2, s2) => .ok (b2, s2)
      else .error (.expErr AND_LIST (some s1.currentToken.value))

/-- `Interpreter.or_tail`: `<OT_Tail> := v<AT> <OT_Tail> | ε`; the combine
(pop, pop, push of `or`) happens only after the recursive tail call. -/
def orTailF : Nat → PState → Except PErr (Bool × PState)
  | 0, _ => .error .noFuel
  | fuel + 1, s =>
    if s.currentToken.type = .OR then
      match eat .OR s with
      | .error e => .error e
      | .ok s1 =>
        match andTermF fuel s1 with
        | .error e => .error e
        | .ok (b, s2) =>
          if b then
            match orTailF fuel s2 with
            | .error e => .error e
            | .ok (b2, s3) =>
              if b2 then
                match spop (emit (.orC s3.stack.length) s3) with
                | .error e => .error e
                | .ok (t2, s4) =>
                  match spop s4 with
                  | .error e => .error e
                  | .ok (t1, s5) => .ok (true, spush (t1 || t2) s5)
              else .ok (false, s3)
          else .ok (false, s2)
    else if s.currentToken.type = .IMPLY ∨ s.currentToken.type = .EOF ∨
        s.currentToken.type = .RPAREN then
      .ok (true, s)
    else .error (.expErr OR_TAIL_LIST (some s.currentToken.value))

/-- `Interpreter.or_term`: `<OT> := <AT> <OT_Tail>`. -/
def orTermF : Nat → PState → Except PErr (Bool × PState)
  | 0, _ => .error .noFuel
  | fuel + 1, s =>
    match andTermF fuel s with
    | .error e => .error e
    | .ok (b, s1) =>
      if b then
        match orTailF fuel s1 with
        | .error e => .error e
        | .ok (b2, s2) => .ok (b2, s2)
      else .error (.expErr OR_LIST (some s1.currentToken.value))

/-- `Interpreter.imply_tail`: `<IT_Tail> := -> <OT><IT_Tail> | ε`; the combine
(pop `b`, pop `a`, push `(not a) or b`) happens only after the recursive
tail call. -/
def implyTailF : Nat → PState → Except PErr (Bool × PState)
  | 0, _ => .error .noFuel
  | fuel + 1, s =>
    if s.currentToken.type = .IMPLY then
      match eat .IMPLY s with
      | .error e => .error e
      | .ok s1 =>
        match orTermF fuel s1 with
        | .error e => .error e
        | .ok (b, s2) =>
          if b then
            match implyTailF fuel s2 with
            | .error e => .error e
            | .ok (b2, s3) =>
              if b2 then
                match spop (emit (.impC s3.stack.length) s3) with
                | .error e => .error e
                | .ok (t2, s4) =>
                  match spop s4 with
                  | .error e => .error e
                  | .ok (t1, s5) => .ok (true, spush ((!t1) || t2) s5)
              else .ok (false, s3)
          else .ok (false, s2)
    else if s.currentToken.type = .EOF ∨ s.currentToken.type = .RPAREN then
      .ok (true, s)
    else .error (.expErr IMPLY_TAIL_LIST (some s.currentToken.value))

/-- `Interpreter.imply_term`: `<IT> := <OT><IT_Tail>`. -/
def implyTermF : Nat → PState → Except PErr (Bool × PState)
  | 0, _ => .error .noFuel
  | fuel + 1, s =>
    match orTermF fuel s with
    | .error e => .error e
    | .ok (b, s1) =>
      if b then
        match implyTailF fuel s1 with
        | .error e => .error e
        | .ok (b2, s2) => .ok (b2, s2)
      else .error (.expErr IMPLY_LIST (some s1.currentToken.value))

/-- `Interpreter.bool_stmt`: `<B> := <IT>.`; returns `True` exactly when the
token left after `<IT>` is the `EOF` token, `False` otherwise. -/
def boolStmtF : Nat → PState → Except PErr (Bool × PState)
  | 0, _ => .error .noFuel
  | fuel + 1, s =>
    match implyTermF fuel s with
    | .error e => .error e
    | .ok (b, s1) =>
      if b then
        if s1.currentToken.type = .EOF then .ok (true, s1)
        else .ok (false, s1)
      else .error (.expErr BOOL_LIST (some s1.currentToken.value))

end

/-- `Interpreter.__init__`: fetch the first token, start with an empty stack. -/
def interpInit (l : Lexer) : Except PErr PState :=
  match l.getNextToken with
  | .error e => .error e
  | .ok (t, l1) => .ok ⟨l1, t, [], []⟩

/-- `Interpreter.eval`: run `bool_stmt`; on `True` Python returns
`str(self.stack)` (modelled as `some stack`), on `False` it falls off the end
and returns `None` (modelled as `none`). -/
def evalF (fuel : Nat) (s : PState) : Except PErr (Option (List Bool)) :=
  match boolStmtF fuel s with
  | .error e => .error e
  | .ok (b, s1) => if b then .ok (some s1.stack) else .ok none

/-- The whole pipeline of `main` for one input line: construct the `Lexer`,
construct the `Interpreter` (fetching the first token), run `eval`. -/
def evaluateF (fuel : Nat) (text : List Char) : Except PErr (Option (List Bool)) :=
  match Lexer.init text with
  | .error e => .error e
  | .ok l =>
    match interpInit l with
    | .error e => .error e
    | .ok s => evalF fuel s

/-- `evaluateF` with the default fuel `6 * (length + 2)`, which the
termination theorem proves sufficient for every input text. -/
def evaluate (text : List Char) : Except PErr (Option (List Bool)) :=
  evaluateF (6 * (text.length + 2)) text

/-- Run the pipeline and return the ghost combine trace of the final state. -/
def runTrace (fuel : Nat) (text : List Char) : Except PErr (List Ev) :=
  match Lexer.init text with
  | .error e => .error e
  | .ok l =>
    match interpInit l with
    | .error e => .error e
    | .ok s =>
      match boolStmtF fuel s with
      | .error e => .error e
      | .ok (_, s1) => .ok s1.trace

/-- `runTrace` at the default fuel. -/
def traceOf (text : List Char) : Except PErr (List Ev) :=
  runTrace (6 * (text.length + 2)) text

/-- The depths of the `or`-combine events of a trace, in execution order. -/
def orDepths (t : List Ev) : List Nat :=
  t.filterMap fun e => match e with | .orC d => some d | _ => none

/-- The depths of the `and`-combine events of a trace, in execution order. -/
def andDepths (t : List Ev) : List Nat :=
  t.filterMap fun e => match e with | .andC d => some d | _ => none

/-- The depths of the `implies`-combine events of a trace, in execution
order. -/
def impDepths (t : List Ev) : List Nat :=
  t.filterMap fun e => match e with | .impC d => some d | _ => none

/-- The unconsumed portion of the lexer text (everything at or after the
cursor). -/
def Lexer.rem (l : Lexer) : List Char :=
  l.text.drop l.pos

/-- The cursor/current-character invariant of the spec's data model: the
cursor stays within `[0, length]` and the cached current character is the
character under the cursor (absent iff the cursor is at or past the end). -/
def Inv (l : Lexer) : Prop :=
  l.pos ≤ l.text.length ∧ l.currentChar = l.text[l.pos]?

instance (l : Lexer) : Decidable (Inv l) := by unfold Inv; infer_instance

/-- Parser termination measure: unconsumed characters plus one for a pending
non-`EOF` lookahead token. -/
def meas (s : PState) : Nat :=
  (s.lexer.text.length - s.lexer.pos) + (if s.currentToken.type = .EOF then 0 else 1)

/-- The canonical source text of a (canonical) token. -/
def tokChars : TokType → List Char
  | .TRUE => ['T']
  | .FALSE => ['F']
  | .AND => ['^']
  | .OR => ['v']
  | .IMPLY => ['-', '>']
  | .NOT => ['~']
  | .LPAREN => ['(']
  | .RPAREN => [')']
  | .EOF => ['.']

/-- The source text of a token sequence (concatenation of the canonical
terminal symbols, exactly the string the grammar derives). -/
def tokensChars : List Token → List Char
  | [] => []
  | t :: ts => tokChars t.type ++ tokensChars ts

/-- Grammar nonterminals of the spec (`ImplyExpr`, `ImplyTail`, `OrExpr`,
`OrTail`, `AndExpr`, `AndTail`, `Literal`, `Atom`). -/
inductive GRule where
  | imply | implyTail | orE | orTail | andE | andTail | lit | atomE
  deriving DecidableEq

/-- `Deriv r ts`: the token sequence `ts` is derivable from nonterminal `r`
by the spec grammar (section 4.2). -/
inductive Deriv : GRule → List Token → Prop where
  | imply : Deriv .orE ts1 → Deriv .implyTail ts2 → Deriv .imply (ts1 ++ ts2)
  | implyTailStep : Deriv .orE ts1 → Deriv .implyTail ts2 →
      Deriv .implyTail (Token.mk .IMPLY "->" :: (ts1 ++ ts2))
  | implyTailEps : Deriv .implyTail []
  | orE : Deriv .andE ts1 → Deriv .orTail ts2 → Deriv .orE (ts1 ++ ts2)
  | orTailStep : Deriv .andE ts1 → Deriv .orTail ts2 →
      Deriv .orTail (Token.mk .OR "v" :: (ts1 ++ ts2))
  | orTailEps : Deriv .orTail []
  | andE : Deriv .lit ts1 → Deriv .andTail ts2 → Deriv .andE (ts1 ++ ts2)
  | andTailStep : Deriv .lit ts1 → Deriv .andTail ts2 →
      Deriv .andTail (Token.mk .AND "^" :: (ts1 ++ ts2))
  | andTailEps : Deriv .andTail []
  | litNot : Deriv .lit ts → Deriv .lit (Token.mk .NOT "~" :: ts)
  | litAtom : Deriv .atomE ts → Deriv .lit ts
  | atomTrue : Deriv .atomE [Token.mk .TRUE "T"]
  | atomFalse : Deriv .atomE [Token.mk .FALSE "F"]
  | atomParen : Deriv .imply ts →
      Deriv .atomE (Token.mk .LPAREN "(" :: (ts ++ [Token.mk .RPAREN ")"]))

/-- `ReadsOne cs u r`: from text `cs` the lexer produces the single token `u`
leaving remainder `r` (for `.` the lexer does not consume the terminator). -/
inductive ReadsOne : List Char → Token → List Char → Prop where
  | tru (r) : ReadsOne ('T' :: r) (Token.mk .TRUE "T") r
  | fls (r) : ReadsOne ('F' :: r) (Token.mk .FALSE "F") r
  | conj (r) : ReadsOne ('^' :: r) (Token.mk .AND "^") r
  | disj (r) : ReadsOne ('v' :: r) (Token.mk .OR "v") r
  | impl (r) : ReadsOne ('-' :: '>' :: r) (Token.mk .IMPLY "->") r
  | neg (r) : ReadsOne ('~' :: r) (Token.mk .NOT "~") r
  | lp (r) : ReadsOne ('(' :: r) (Token.mk .LPAREN "(") r
  | rp (r) : ReadsOne (')' :: r) (Token.mk .RPAREN ")") r
  | dot (r) : ReadsOne ('.' :: r) (Token.mk .EOF ".") ('.' :: r)

/-- A token that can begin an `Atom` chunk. -/
@[reducible] def AtomHead (t : Token) : Prop :=
  t = Token.mk .TRUE "T" ∨ t = Token.mk .FALSE "F" ∨ t = Token.mk .LPAREN "("

/-- A token that can begin a `Literal` chunk. -/
@[reducible] def HeadTok (t : Token) : Prop :=
  t = Token.mk .TRUE "T" ∨ t = Token.mk .FALSE "F" ∨
    t = Token.mk .NOT "~" ∨ t = Token.mk .LPAREN "("

/-- The `ε`-selection set of `ImplyTail` (tokens that may follow an
`ImplyExpr`). -/
@[reducible] def FollowImply (u : Token) : Prop :=
  u.type = .EOF ∨ u.type = .RPAREN

/-- The `ε`-selection set of `OrTail` (tokens that may follow an `OrExpr`). -/
@[reducible] def FollowOr (u : Token) : Prop :=
  u.type = .IMPLY ∨ u.type = .EOF ∨ u.type = .RPAREN

/-- The `ε`-selection set of `AndTail` (tokens that may follow an
`AndExpr`). -/
@[reducible] def FollowAnd (u : Token) : Prop :=
  u.type = .OR ∨ u.type = .IMPLY ∨ u.type = .EOF ∨ u.type = .RPAREN

/-- `At s ts u ur r'`: the parser state `s` is positioned at the start of the
token chunk `ts`, which is followed in the input text by the token `u` (with
source text `ur`, remainder `r'` after reading `u`).  The parser keeps one
token of lookahead, so for a nonempty chunk the head is in `currentToken` and
the lexer holds the rest; for the empty chunk `u` itself has already been
read into `currentToken`. -/
@[reducible] def At (s : PState) (ts : List Token) (u : Token) (ur r' : List Char) : Prop :=
  Inv s.lexer ∧ ReadsOne ur u r' ∧
    (match ts with
     | [] => s.currentToken = u ∧ s.lexer.rem = r'
     | t :: tr => s.currentToken = t ∧ s.lexer.rem = tokensChars tr ++ ur)

/-- `Done s' u r'`: the parser has consumed its chunk, read the follow token
`u` into the lookahead, and the lexer rests at `r'`. -/
@[reducible] def Done (s' : PState) (u : Token) (r' : List Char) : Prop :=
  Inv s'.lexer ∧ s'.currentToken = u ∧ s'.lexer.rem = r'

/-- `RunsTo F s s'`: with any sufficiently large fuel, the grammar method `F`
run at `s` returns `True` with post-state `s'`. -/
@[reducible] def RunsTo (F : Nat → PState → Except PErr (Bool × PState)) (s s' : PState) : Prop :=
  ∃ N, ∀ f, N ≤ f → F f s = .ok (true, s')

/-- The parser-completeness statement attached to each nonterminal: positioned
at a chunk derived from that nonterminal (with a follow token from the rule's
selection set), the corresponding grammar method consumes exactly the chunk,
succeeds, and replaces the operands it consumed by one combined value on the
stack. -/
@[reducible] def Motive : GRule → List Token → Prop
  | .atomE, ts => ∀ s u ur r', At s ts u ur r' →
      ∃ s' bv, RunsTo atomF s s' ∧ Done s' u r' ∧ s'.stack = bv :: s.stack
  | .lit, ts => ∀ s u ur r', At s ts u ur r' →
      ∃ s' bv, RunsTo literalF s s' ∧ Done s' u r' ∧ s'.stack = bv :: s.stack
  | .andE, ts => ∀ s u ur r', At s ts u ur r' → FollowAnd u →
      ∃ s' bv, RunsTo andTermF s s' ∧ Done s' u r' ∧ s'.stack = bv :: s.stack
  | .andTail, ts => ∀ s u ur r' a S, At s ts u ur r' → FollowAnd u →
      s.stack = a :: S →
      ∃ s' bv, RunsTo andTailF s s' ∧ Done s' u r' ∧ s'.stack = bv :: S
  | .orE, ts => ∀ s u ur r', At s ts u ur r' → FollowOr u →
      ∃ s' bv, RunsTo orTermF s s' ∧ Done s' u r' ∧ s'.stack = bv :: s.stack
  | .orTail, ts => ∀ s u ur r' a S, At s ts u ur r' → FollowOr u →
      s.stack = a :: S →
      ∃ s' bv, RunsTo orTailF s s' ∧ Done s' u r' ∧ s'.stack = bv :: S
  | .imply, ts => ∀ s u ur r', At s ts u ur r' → FollowImply u →
      ∃ s' bv, RunsTo implyTermF s s' ∧ Done s' u r' ∧ s'.stack = bv :: s.stack
  | .implyTail, ts => ∀ s u ur r' a S, At s ts u ur r' → FollowImply u →
      s.stack = a :: S →
      ∃ s' bv, RunsTo implyTailF s s' ∧ Done s' u r' ∧ s'.stack = bv :: S

/- ===================== Theorems ===================== -/

section ConcreteRuns

/-- C7: AND binds tighter than OR: evaluating `T v F ^ F.` yields `True`
(the stack at success holds exactly `[true]`). -/
theorem c7_and_binds_tighter :
    evaluate "T v F ^ F.".toList = .ok (some [true]) := rfl

/-- C5: IMPLIES is right-associative: `F -> F -> F.` evaluates to `True`,
and the ghost trace shows each `imply_tail` combine fires only after its
recursive tail completed: the first combine executed is the inner one, at
stack depth 3 (all three operands pushed), then the outer one at depth 2. -/
theorem c5_imply_right_assoc :
    evaluate "F -> F -> F.".toList = .ok (some [true]) ∧
      traceOf "F -> F -> F.".toList = .ok [Ev.impC 3, Ev.impC 2] :=
  ⟨rfl, rfl⟩

/-- C4 counterexample: the claim says both tail rules combine immediately on
each repetition step, before any recursive tail call; for `or_tail` that
would pop its two operands at stack depth 2 on each step of
`T v F v T.`, giving combine trace `[orC 2, orC 2]`.  The code's `or_tail`
combines only after the recursive tail call: its first combine happens at
depth 3 (all three operands pushed), so the trace is `[orC 3, orC 2]`. -/
theorem c4_or_tail_not_immediate :
    traceOf "T v F v T.".toList = .ok [Ev.orC 3, Ev.orC 2] ∧
      Except.ok [Ev.orC 3, Ev.orC 2] ≠
        (Except.ok [Ev.orC 2, Ev.orC 2] : Except PErr (List Ev)) :=
  ⟨rfl, by intro h; injection h with h2; exact absurd h2 (by decide)⟩

/-- C4 amended: `and_tail` combines immediately on each repetition step
before its recursive tail call (combine trace of `T ^ F ^ T.` is
`[andC 2, andC 2]`, a left-to-right fold), whereas `or_tail` combines only
after its recursive tail call has completed (combine trace of `T v F v T.`
is `[orC 3, orC 2]`, a right fold — yielding the same boolean because OR is
associative); evaluating `T ^ F ^ T.` yields `False`. -/
theorem c4_amended_tail_folding :
    traceOf "T ^ F ^ T.".toList = .ok [Ev.andC 2, Ev.andC 2] ∧
      traceOf "T v F v T.".toList = .ok [Ev.orC 3, Ev.orC 2] ∧
      evaluate "T ^ F ^ T.".toList = .ok (some [false]) :=
  ⟨rfl, rfl, rfl⟩

/-- C6 counterexample: the claim says evaluating `T. F` raises a
`SyntaxError`; in fact it succeeds with stack `[True]` — `get_next_token`
stops at the terminator `.` without consuming it, so the trailing ` F` is
never examined. -/
theorem c6_trailing_garbage_accepted :
    evaluate "T. F".toList = .ok (some [true]) := rfl

/-- C6 amended: evaluating `T. F` raises nothing: the lexer never advances
past the first `.`, every `get_next_token` call there returns the `EOF`
token again, so the result is the same successful `[True]` as for `T.`. -/
theorem c6_amended_input_after_dot_ignored :
    evaluate "T. F".toList = evaluate "T.".toList ∧
      evaluate "T. F".toList = .ok (some [true]) :=
  ⟨rfl, rfl⟩

/-- C10: constructing a `Lexer` over the empty string raises (the
out-of-range index `text[0]` while caching the first character), so the
whole pipeline fails on empty input before any token is read: the core's
interface presumes a non-empty text. -/
theorem c10_empty_text_raises :
    Lexer.init ([] : List Char) = .error .indexErr ∧
      evaluate ([] : List Char) = .error .indexErr :=
  ⟨rfl, rfl⟩

/-- C2 counterexample: the claim says `eval` either returns the formula's
final boolean value or fails with a descriptive error, never any other kind
of result; on `T).` (where `ImplyExpr` reduces but the terminal check sees
`RPAREN`) `bool_stmt` returns `False` and `eval` falls off its `if`,
returning Python `None` — neither a value nor an error. -/
theorem c2_eval_returns_none :
    evaluate "T).".toList = .ok none := rfl

/-- C3 counterexample: the claim says the entry point raises a syntax error
reporting trailing input whenever `ImplyExpr` reduces but the current token
is not `EOF`; on the state reached for `T).` (current token `TRUE`, cursor
on `)`), `bool_stmt` raises nothing and returns `False`, leaving the
`RPAREN` token current. -/
theorem c3_no_error_on_trailing :
    boolStmtF 20
        (PState.mk (Lexer.mk ['T', ')', '.'] 1 (some ')'))
          (Token.mk .TRUE "T") [] []) =
      .ok (false,
        PState.mk (Lexer.mk ['T', ')', '.'] 2 (some '.'))
          (Token.mk .RPAREN ")") [true] []) := rfl

end ConcreteRuns

section LexerLemmas

theorem skipWsF_succ (n : Nat) (l : Lexer) : skipWsF (n + 1) l =
    match l.currentChar with
    | some c => if c.isWhitespace then skipWsF n l.advance else .ok l
    | none => .ok l := rfl

theorem gntF_succ (n : Nat) (l : Lexer) : gntF (n + 1) l =
    if l.currentChar = some '.' then
      .ok (⟨.EOF, "."⟩, l)
    else
      match l.currentChar with
      | none => .error (.expErr "." none)
      | some c =>
        if c.isWhitespace then
          match l.skipWhitespace with
          | .error e => .error e
          | .ok l1 => gntF n l1
        else if c = '^' then .ok (⟨.AND, "^"⟩, l.advance)
        else if c = 'v' then .ok (⟨.OR, "v"⟩, l.advance)
        else if c = '-' then
          match l.implies with
          | .error e => .error e
          | .ok (s, l1) => .ok (⟨.IMPLY, s⟩, l1)
        else if c = '~' then .ok (⟨.NOT, "~"⟩, l.advance)
        else if c = 'T' then .ok (⟨.TRUE, "T"⟩, l.advance)
        else if c = 'F' then .ok (⟨.FALSE, "F"⟩, l.advance)
        else if c = '(' then .ok (⟨.LPAREN, "("⟩, l.advance)
        else if c = ')' then .ok (⟨.RPAREN, ")"⟩, l.advance)
        else .error (.invalidChar (some (String.mk [c]))) := rfl

theorem rem_advance (l : Lexer) : l.advance.rem = l.rem.tail := by
  show l.text.drop (l.pos + 1) = (l.text.drop l.pos).tail
  rw [List.tail_drop]

theorem cc_of_rem {l : Lexer} {c : Char} {r : List Char}
    (hwf : l.currentChar = l.text[l.pos]?) (hr : l.rem = c :: r) :
    l.currentChar = some c := by
  have h0 : (l.text.drop l.pos)[0]? = l.text[l.pos + 0]? := List.getElem?_drop ..
  rw [Nat.add_zero] at h0
  rw [hwf, ← h0, show l.text.drop l.pos = l.rem from rfl, hr]
  exact List.getElem?_cons_zero

theorem pos_lt_of_cc {l : Lexer} {c : Char}
    (hwf : l.currentChar = l.text[l.pos]?) (hc : l.currentChar = some c) :
    l.pos < l.text.length := by
  by_contra hlt
  push_neg at hlt
  have hnone : l.text[l.pos]? = none := List.getElem?_eq_none_iff.mpr hlt
  rw [hwf, hnone] at hc
  cases hc

theorem inv_advance {l : Lexer} {c : Char} (h : Inv l)
    (hc : l.currentChar = some c) : Inv l.advance :=
  ⟨pos_lt_of_cc h.2 hc, rfl⟩

theorem inv_init {text : List Char} {l : Lexer}
    (h : Lexer.init text = .ok l) : Inv l := by
  cases text with
  | nil => cases h
  | cons c cs =>
    simp only [Lexer.init] at h
    cases h
    exact ⟨Nat.zero_le _, List.getElem?_cons_zero.symm⟩

theorem skipWsF_inv (n : Nat) : ∀ l l', skipWsF n l = .ok l' → Inv l →
    Inv l' ∧ l.pos ≤ l'.pos ∧ l'.text = l.text := by
  induction n with
  | zero => intro l l' h _; cases h
  | succ n ih =>
    intro l l' h hInv
    simp only [skipWsF] at h
    cases hcc : l.currentChar with
    | none =>
      simp only [hcc, Except.ok.injEq] at h
      subst h
      exact ⟨hInv, le_refl _, rfl⟩
    | some c =>
      simp only [hcc] at h
      by_cases hws : c.isWhitespace
      · rw [if_pos hws] at h
        have h2 := ih _ _ h (inv_advance hInv hcc)
        exact ⟨h2.1, le_trans (Nat.le_succ _) h2.2.1, h2.2.2⟩
      · rw [if_neg hws] at h
        simp only [Except.ok.injEq] at h
        subst h
        exact ⟨hInv, le_refl _, rfl⟩

theorem skipWsF_post (n : Nat) : ∀ l l', skipWsF n l = .ok l' →
    l'.currentChar = none ∨
      ∃ c, l'.currentChar = some c ∧ c.isWhitespace = false := by
  induction n with
  | zero => intro l l' h; cases h
  | succ n ih =>
    intro l l' h
    simp only [skipWsF] at h
    cases hcc : l.currentChar with
    | none =>
      simp only [hcc, Except.ok.injEq] at h
      subst h
      exact .inl hcc
    | some c =>
      simp only [hcc] at h
      by_cases hws : c.isWhitespace
      · rw [if_pos hws] at h
        exact ih _ _ h
      · rw [if_neg hws] at h
        simp only [Except.ok.injEq] at h
        subst h
        exact .inr ⟨c, hcc, by simpa using hws⟩

theorem skipWsF_total (n : Nat) : ∀ l : Lexer,
    l.currentChar = l.text[l.pos]? → l.text.length + 1 - l.pos < n →
    ∃ l', skipWsF n l = .ok l' := by
  induction n with
  | zero => intro l _ h; omega
  | succ n ih =>
    intro l hwf hn
    simp only [skipWsF]
    cases hcc : l.currentChar with
    | none => exact ⟨l, rfl⟩
    | some c =>
      simp only [hcc]
      by_cases hws : c.isWhitespace
      · rw [if_pos hws]
        apply ih
        · rfl
        · have hlt : l.pos < l.text.length := pos_lt_of_cc hwf hcc
          show l.text.length + 1 - (l.pos + 1) < n
          omega
      · rw [if_neg hws]; exact ⟨l, rfl⟩

theorem skipWs_total (l : Lexer) : ∃ l', l.skipWhitespace = .ok l' ∧
    (l'.currentChar = none ∨
      ∃ c, l'.currentChar = some c ∧ c.isWhitespace = false) ∧
    (Inv l → Inv l' ∧ l.pos ≤ l'.pos ∧ l'.text = l.text) := by
  have hok : ∃ l'', l.skipWhitespace = .ok l'' := by
    show ∃ l'', skipWsF (l.text.length + 2 + 1) l = .ok l''
    rw [skipWsF_succ]
    cases hcc : l.currentChar with
    | none => exact ⟨l, rfl⟩
    | some c =>
      simp only [hcc]
      by_cases hws : c.isWhitespace
      · rw [if_pos hws]
        apply skipWsF_total
        · rfl
        · show l.text.length + 1 - (l.pos + 1) < l.text.length + 2
          omega
      · rw [if_neg hws]; exact ⟨l, rfl⟩
  obtain ⟨l'', h⟩ := hok
  exact ⟨l'', h, skipWsF_post _ _ _ h, fun hInv => skipWsF_inv _ _ _ h hInv⟩

theorem implies_ne_noFuel (l : Lexer) : l.implies ≠ .error .noFuel := by
  intro h
  simp only [Lexer.implies] at h
  cases hcc : l.currentChar with
  | none => simp only [hcc] at h; cases h
  | some c =>
    simp only [hcc] at h
    cases hcc2 : l.advance.currentChar with
    | none => simp only [hcc2] at h; cases h
    | some c2 =>
      simp only [hcc2] at h
      by_cases he : String.mk [c, c2] = "->"
      · rw [if_pos he] at h; cases h
      · rw [if_neg he] at h; cases h

theorem implies_inv {l : Lexer} {s2 : String} {l' : Lexer}
    (hInv : Inv l) (h : l.implies = .ok (s2, l')) :
    Inv l' ∧ l.pos < l'.pos ∧ l'.text = l.text := by
  simp only [Lexer.implies] at h
  cases hcc : l.currentChar with
  | none => simp only [hcc] at h; cases h
  | some c =>
    simp only [hcc] at h
    cases hcc2 : l.advance.currentChar with
    | none => simp only [hcc2] at h; cases h
    | some c2 =>
      simp only [hcc2] at h
      by_cases he : String.mk [c, c2] = "->"
      · rw [if_pos he] at h
        simp only [Except.ok.injEq, Prod.mk.injEq] at h
        obtain ⟨-, rfl⟩ := h
        refine ⟨inv_advance (inv_advance hInv hcc) hcc2, ?_, rfl⟩
        show l.pos < l.pos + 1 + 1
        omega
      · rw [if_neg he] at h
        cases h

theorem gntF_inv (n : Nat) : ∀ l t l', Inv l → gntF n l = .ok (t, l') →
    Inv l' ∧ l.pos ≤ l'.pos ∧ (t.type ≠ .EOF → l.pos < l'.pos) ∧
      l'.text = l.text := by
  induction n with
  | zero => intro l t l' _ h; cases h
  | succ n ih =>
    intro l t l' hInv h
    simp only [gntF] at h
    by_cases hdot : l.currentChar = some '.'
    · rw [if_pos hdot] at h
      simp only [Except.ok.injEq, Prod.mk.injEq] at h
      obtain ⟨rfl, rfl⟩ := h
      exact ⟨hInv, le_refl _, fun hne => absurd rfl hne, rfl⟩
    · rw [if_neg hdot] at h
      cases hcc : l.currentChar with
      | none => simp only [hcc] at h; cases h
      | some c =>
        simp only [hcc] at h
        by_cases hws : c.isWhitespace
        · rw [if_pos hws] at h
          obtain ⟨l1, hsw, _, hinv1⟩ := skipWs_total l
          rw [hsw] at h
          obtain ⟨hInv1, hle1, htext1⟩ := hinv1 hInv
          have h2 := ih l1 t l' hInv1 h
          exact ⟨h2.1, le_trans hle1 h2.2.1,
            fun hne => lt_of_le_of_lt hle1 (h2.2.2.1 hne),
            h2.2.2.2.trans htext1⟩
        · rw [if_neg hws] at h
          have hadv : Inv l.advance ∧ l.pos < l.advance.pos :=
            ⟨inv_advance hInv hcc, Nat.lt_succ_self _⟩
          by_cases h1 : c = '^'
          · rw [if_pos h1] at h
            simp only [Except.ok.injEq, Prod.mk.injEq] at h
            obtain ⟨-, rfl⟩ := h
            exact ⟨hadv.1, le_of_lt hadv.2, fun _ => hadv.2, rfl⟩
          rw [if_neg h1] at h
          by_cases h2 : c = 'v'
          · rw [if_pos h2] at h
            simp only [Except.ok.injEq, Prod.mk.injEq] at h
            obtain ⟨-, rfl⟩ := h
            exact ⟨hadv.1, le_of_lt hadv.2, fun _ => hadv.2, rfl⟩
          rw [if_neg h2] at h
          by_cases h3 : c = '-'
          · rw [if_pos h3] at h
            cases himp : l.implies with
            | error e => rw [himp] at h; cases h
            | ok p =>
              obtain ⟨s2, l1⟩ := p
              rw [himp] at h
              simp only [Except.ok.injEq, Prod.mk.injEq] at h
              obtain ⟨-, rfl⟩ := h
              have hii := implies_inv hInv himp
              exact ⟨hii.1, le_of_lt hii.2.1, fun _ => hii.2.1, hii.2.2⟩
          rw [if_neg h3] at h
          by_cases h4 : c = '~'
          · rw [if_pos h4] at h
            simp only [Except.ok.injEq, Prod.mk.injEq] at h
            obtain ⟨-, rfl⟩ := h
            exact ⟨hadv.1, le_of_lt hadv.2, fun _ => hadv.2, rfl⟩
          rw [if_neg h4] at h
          by_cases h5 : c = 'T'
          · rw [if_pos h5] at h
            simp only [Except.ok.injEq, Prod.mk.injEq] at h
            obtain ⟨-, rfl⟩ := h
            exact ⟨hadv.1, le_of_lt hadv.2, fun _ => hadv.2, rfl⟩
          rw [if_neg h5] at h
          by_cases h6 : c = 'F'
          · rw [if_pos h6] at h
            simp only [Except.ok.injEq, Prod.mk.injEq] at h
            obtain ⟨-, rfl⟩ := h
            exact ⟨hadv.1, le_of_lt hadv.2, fun _ => hadv.2, rfl⟩
          rw [if_neg h6] at h
          by_cases h7 : c = '('
          · rw [if_pos h7] at h
            simp only [Except.ok.injEq, Prod.mk.injEq] at h
            obtain ⟨-, rfl⟩ := h
            exact ⟨hadv.1, le_of_lt hadv.2, fun _ => hadv.2, rfl⟩
          rw [if_neg h7] at h
          by_cases h8 : c = ')'
          · rw [if_pos h8] at h
            simp only [Except.ok.injEq, Prod.mk.injEq] at h
            obtain ⟨-, rfl⟩ := h
            exact ⟨hadv.1, le_of_lt hadv.2, fun _ => hadv.2, rfl⟩
          rw [if_neg h8] at h
          cases h

theorem gnt_inv {l : Lexer} {t : Token} {l' : Lexer} (hInv : Inv l)
    (h : l.getNextToken = .ok (t, l')) :
    Inv l' ∧ l.pos ≤ l'.pos ∧ (t.type ≠ .EOF → l.pos < l'.pos) ∧
      l'.text = l.text :=
  gntF_inv 3 l t l' hInv h

theorem gntF_step_ne_noFuel (n : Nat) (l : Lexer)
    (hpost : l.currentChar = none ∨
      ∃ c, l.currentChar = some c ∧ c.isWhitespace = false) :
    gntF (n + 1) l ≠ .error .noFuel := by
  simp only [gntF]
  by_cases hdot : l.currentChar = some '.'
  · rw [if_pos hdot]; intro h; cases h
  · rw [if_neg hdot]
    cases hcc : l.currentChar with
    | none => simp only [hcc]; intro h; cases h
    | some c =>
      have hws : c.isWhitespace = false := by
        rcases hpost with hn | ⟨c', hc', hw⟩
        · rw [hn] at hcc; cases hcc
        · rw [hc'] at hcc; injection hcc with hcc; subst hcc; exact hw
      simp only [hcc]
      rw [if_neg (by simp [hws])]
      by_cases h1 : c = '^'
      · rw [if_pos h1]; intro h; cases h
      rw [if_neg h1]
      by_cases h2 : c = 'v'
      · rw [if_pos h2]; intro h; cases h
      rw [if_neg h2]
      by_cases h3 : c = '-'
      · rw [if_pos h3]
        cases himp : l.implies with
        | error e =>
          intro h
          injection h with he
          exact implies_ne_noFuel l (by rw [himp, he])
        | ok p => intro h; cases h
      rw [if_neg h3]
      by_cases h4 : c = '~'
      · rw [if_pos h4]; intro h; cases h
      rw [if_neg h4]
      by_cases h5 : c = 'T'
      · rw [if_pos h5]; intro h; cases h
      rw [if_neg h5]
      by_cases h6 : c = 'F'
      · rw [if_pos h6]; intro h; cases h
      rw [if_neg h6]
      by_cases h7 : c = '('
      · rw [if_pos h7]; intro h; cases h
      rw [if_neg h7]
      by_cases h8 : c = ')'
      · rw [if_pos h8]; intro h; cases h
      rw [if_neg h8]
      intro h; cases h

theorem gnt_ne_noFuel (l : Lexer) : l.getNextToken ≠ .error .noFuel := by
  cases hcc : l.currentChar with
  | none => exact gntF_step_ne_noFuel 2 l (.inl hcc)
  | some c =>
    by_cases hws : c.isWhitespace
    · have hdot : ¬ l.currentChar = some '.' := by
        rw [hcc]
        intro h
        injection h with h
        subst h
        simp at hws
      show gntF (2 + 1) l ≠ .error .noFuel
      rw [gntF_succ]
      rw [if_neg hdot]
      simp only [hcc]
      rw [if_pos hws]
      obtain ⟨l1, hsw, hpost, _⟩ := skipWs_total l
      rw [hsw]
      exact gntF_step_ne_noFuel 1 l1 hpost
    · exact gntF_step_ne_noFuel 2 l (.inr ⟨c, hcc, by simpa using hws⟩)

theorem gnt_readsOne {l : Lexer} {cs : List Char} {u : Token} {r' : List Char}
    (hInv : Inv l) (hrem : l.rem = cs) (h : ReadsOne cs u r') :
    ∃ l', l.getNextToken = .ok (u, l') ∧ Inv l' ∧ l'.rem = r' := by
  cases h with
  | tru r =>
    have hcc : l.currentChar = some 'T' := cc_of_rem hInv.2 hrem
    refine ⟨l.advance, ?_, inv_advance hInv hcc, by rw [rem_advance, hrem]; rfl⟩
    show gntF (2 + 1) l = _
    rw [gntF_succ, if_neg (by rw [hcc]; decide)]
    simp [hcc]
  | fls r =>
    have hcc : l.currentChar = some 'F' := cc_of_rem hInv.2 hrem
    refine ⟨l.advance, ?_, inv_advance hInv hcc, by rw [rem_advance, hrem]; rfl⟩
    show gntF (2 + 1) l = _
    rw [gntF_succ, if_neg (by rw [hcc]; decide)]
    simp [hcc]
  | conj r =>
    have hcc : l.currentChar = some '^' := cc_of_rem hInv.2 hrem
    refine ⟨l.advance, ?_, inv_advance hInv hcc, by rw [rem_advance, hrem]; rfl⟩
    show gntF (2 + 1) l = _
    rw [gntF_succ, if_neg (by rw [hcc]; decide)]
    simp [hcc]
  | disj r =>
    have hcc : l.currentChar = some 'v' := cc_of_rem hInv.2 hrem
    refine ⟨l.advance, ?_, inv_advance hInv hcc, by rw [rem_advance, hrem]; rfl⟩
    show gntF (2 + 1) l = _
    rw [gntF_succ, if_neg (by rw [hcc]; decide)]
    simp [hcc]
  | impl r =>
    have hcc : l.currentChar = some '-' := cc_of_rem hInv.2 hrem
    have hrem1 : l.advance.rem = '>' :: r' := by rw [rem_advance, hrem]; rfl
    have hcc2 : l.advance.currentChar = some '>' := cc_of_rem rfl hrem1
    refine ⟨l.advance.advance, ?_, inv_advance (inv_advance hInv hcc) hcc2,
      by rw [rem_advance, hrem1]; rfl⟩
    show gntF (2 + 1) l = _
    rw [gntF_succ, if_neg (by rw [hcc]; decide)]
    have himp : l.implies = .ok ("->", l.advance.advance) := by
      simp [Lexer.implies, hcc, hcc2]
    simp [hcc, himp]
  | neg r =>
    have hcc : l.currentChar = some '~' := cc_of_rem hInv.2 hrem
    refine ⟨l.advance, ?_, inv_advance hInv hcc, by rw [rem_advance, hrem]; rfl⟩
    show gntF (2 + 1) l = _
    rw [gntF_succ, if_neg (by rw [hcc]; decide)]
    simp [hcc]
  | lp r =>
    have hcc : l.currentChar = some '(' := cc_of_rem hInv.2 hrem
    refine ⟨l.advance, ?_, inv_advance hInv hcc, by rw [rem_advance, hrem]; rfl⟩
    show gntF (2 + 1) l = _
    rw [gntF_succ, if_neg (by rw [hcc]; decide)]
    simp [hcc]
  | rp r =>
    have hcc : l.currentChar = some ')' := cc_of_rem hInv.2 hrem
    refine ⟨l.advance, ?_, inv_advance hInv hcc, by rw [rem_advance, hrem]; rfl⟩
    show gntF (2 + 1) l = _
    rw [gntF_succ, if_neg (by rw [hcc]; decide)]
    simp [hcc]
  | dot r =>
    have hcc : l.currentChar = some '.' := cc_of_rem hInv.2 hrem
    refine ⟨l, ?_, hInv, hrem⟩
    show gntF (2 + 1) l = _
    rw [gntF_succ, if_pos hcc]

end LexerLemmas

section StateLemmas

theorem meas_spush (b : Bool) (s : PState) : meas (spush b s) = meas s := rfl

theorem meas_emit (e : Ev) (s : PState) : meas (emit e s) = meas s := rfl

theorem lexer_spush (b : Bool) (s : PState) : (spush b s).lexer = s.lexer := rfl

theorem lexer_emit (e : Ev) (s : PState) : (emit e s).lexer = s.lexer := rfl

theorem spop_ok {s : PState} {t : Bool} {s' : PState}
    (h : spop s = .ok (t, s')) :
    s'.lexer = s.lexer ∧ s'.currentToken = s.currentToken ∧
      s'.trace = s.trace ∧ s.stack = t :: s'.stack ∧ meas s' = meas s := by
  unfold spop at h
  cases hst : s.stack with
  | nil => simp only [hst] at h; cases h
  | cons b rest =>
    simp only [hst] at h
    simp only [Except.ok.injEq, Prod.mk.injEq] at h
    obtain ⟨rfl, rfl⟩ := h
    exact ⟨rfl, rfl, rfl, rfl, rfl⟩

theorem spop_cons {b : Bool} {rest : List Bool} {s : PState}
    (h : s.stack = b :: rest) :
    spop s = .ok (b, { s with stack := rest }) := by
  unfold spop
  simp only [h]

theorem eat_err_ne_noFuel {tt : TokType} {s : PState} {e : PErr}
    (h : eat tt s = .error e) : e ≠ .noFuel := by
  unfold eat at h
  by_cases hc : s.currentToken.type = tt
  · rw [if_pos hc] at h
    cases hg : s.lexer.getNextToken with
    | error e2 =>
      simp only [hg] at h
      injection h with h
      subst h
      exact fun hcon => gnt_ne_noFuel s.lexer (by rw [hg, hcon])
    | ok p => simp only [hg] at h; cases h
  · rw [if_neg hc] at h
    injection h with h
    subst h
    intro hcon
    cases hcon

theorem eat_ok {tt : TokType} {s : PState} {s' : PState}
    (h : eat tt s = .ok s') :
    ∃ t l', s.currentToken.type = tt ∧ s.lexer.getNextToken = .ok (t, l') ∧
      s' = { s with lexer := l', currentToken := t } := by
  unfold eat at h
  by_cases hc : s.currentToken.type = tt
  · rw [if_pos hc] at h
    cases hg : s.lexer.getNextToken with
    | error e2 => simp only [hg] at h; cases h
    | ok p =>
      obtain ⟨t, l'⟩ := p
      simp only [hg] at h
      injection h with h
      subst h
      exact ⟨t, l', hc, rfl, rfl⟩
  · rw [if_neg hc] at h; cases h

theorem eat_progress {tt : TokType} {s s' : PState} (hInv : Inv s.lexer)
    (h : eat tt s = .ok s') (htt : tt ≠ .EOF) :
    Inv s'.lexer ∧ meas s' < meas s ∧ s'.stack = s.stack ∧
      s'.trace = s.trace := by
  obtain ⟨t, l', hc, hg, rfl⟩ := eat_ok h
  obtain ⟨hInv', hle, hlt, htext⟩ := gnt_inv hInv hg
  refine ⟨hInv', ?_, rfl, rfl⟩
  have hcur : (if s.currentToken.type = .EOF then 0 else 1) = 1 := by
    rw [if_neg]; rw [hc]; exact htt
  have hposle : l'.pos ≤ l'.text.length := hInv'.1
  unfold meas
  simp only [htext] at hposle ⊢
  rw [hcur]
  by_cases ht : t.type = .EOF
  · rw [if_pos ht]
    omega
  · rw [if_neg ht]
    have := hlt ht
    omega

theorem eat_at {s : PState} {tt : TokType} {u : Token} {r' : List Char}
    (htt : s.currentToken.type = tt) (hInv : Inv s.lexer)
    (hro : ReadsOne s.lexer.rem u r') :
    ∃ l', eat tt s = .ok { s with lexer := l', currentToken := u } ∧
      Inv l' ∧ l'.rem = r' := by
  obtain ⟨l', hg, hi, hr⟩ := gnt_readsOne hInv rfl hro
  refine ⟨l', ?_, hi, hr⟩
  unfold eat
  rw [if_pos htt]
  simp only [hg]

end StateLemmas

section ClaimC9

/-- C9: the Lexer cursor invariant.  It is established by construction over a
non-empty text; it is preserved by `advance` whenever the current character is
present (which covers every `advance` the code performs: `skip_whitespace`,
`implies` and `get_next_token` only advance with a character in hand, and a
raising call mutates nothing after its last guarded `advance`); consequently
every `get_next_token` call preserves it; and it pins the claimed bounds:
the cursor stays in `[0, length]` and the cached character is `None` iff the
cursor is at or beyond the end of the text. -/
theorem c9_cursor_invariant :
    (∀ text l, Lexer.init text = .ok l → Inv l) ∧
    (∀ (l : Lexer) (c : Char), Inv l → l.currentChar = some c →
      Inv l.advance) ∧
    (∀ (l : Lexer) (t : Token) (l' : Lexer), Inv l →
      l.getNextToken = .ok (t, l') → Inv l') ∧
    (∀ l : Lexer, Inv l → l.pos ≤ l.text.length ∧
      (l.currentChar = none ↔ l.text.length ≤ l.pos)) := by
  refine ⟨fun text l h => inv_init h,
    fun l c hInv hc => inv_advance hInv hc,
    fun l t l' hInv h => (gnt_inv hInv h).1,
    fun l hInv => ⟨hInv.1, ?_⟩⟩
  rw [hInv.2]
  exact List.getElem?_eq_none_iff

/-- Witness for C9 at a concrete lexer state. -/
theorem c9_witness :
    Inv (Lexer.advance (Lexer.mk ['T', '.'] 0 (some 'T'))) ∧
      ((Lexer.mk ['T', '.'] 0 (some 'T')).pos ≤
          (Lexer.mk ['T', '.'] 0 (some 'T')).text.length ∧
        ((Lexer.mk ['T', '.'] 0 (some 'T')).currentChar = none ↔
          (Lexer.mk ['T', '.'] 0 (some 'T')).text.length ≤
            (Lexer.mk ['T', '.'] 0 (some 'T')).pos)) :=
  ⟨c9_cursor_invariant.2.1 (Lexer.mk ['T', '.'] 0 (some 'T')) 'T'
      (by constructor <;> decide) rfl,
    c9_cursor_invariant.2.2.2 (Lexer.mk ['T', '.'] 0 (some 'T'))
      (by constructor <;> decide)⟩

end ClaimC9

section ClaimC3

/-- C3 amended: whenever `bool_stmt` returns normally, its result is `True`
exactly when the token current after reducing `ImplyExpr` is the `EOF`
token; a non-`EOF` leftover makes it return `False` (without raising — the
counterexample shows no syntax error is raised for trailing input). -/
theorem c3_terminal_check (fuel : Nat) (s : PState) (b : Bool) (s' : PState)
    (h : boolStmtF fuel s = .ok (b, s')) :
    b = true ↔ s'.currentToken.type = .EOF := by
  cases fuel with
  | zero => cases h
  | succ n =>
    simp only [boolStmtF] at h
    cases him : implyTermF n s with
    | error e => simp only [him] at h; cases h
    | ok p =>
      obtain ⟨b1, s1⟩ := p
      simp only [him] at h
      cases b1 with
      | false => simp at h
      | true =>
        rw [if_pos rfl] at h
        by_cases he : s1.currentToken.type = .EOF
        · rw [if_pos he] at h
          simp only [Except.ok.injEq, Prod.mk.injEq] at h
          obtain ⟨rfl, rfl⟩ := h
          simpa using he
        · rw [if_neg he] at h
          simp only [Except.ok.injEq, Prod.mk.injEq] at h
          obtain ⟨rfl, rfl⟩ := h
          simpa using he

/-- Witness for C3 on the concrete `T).` run (where `bool_stmt` returns
`False` with the `RPAREN` token current). -/
theorem c3_witness :
    (false = true ↔ (PState.mk (Lexer.mk ['T', ')', '.'] 2 (some '.'))
      (Token.mk .RPAREN ")") [true] []).currentToken.type = .EOF) :=
  c3_terminal_check 20
    (PState.mk (Lexer.mk ['T', ')', '.'] 1 (some ')'))
      (Token.mk .TRUE "T") [] [])
    false
    (PState.mk (Lexer.mk ['T', ')', '.'] 2 (some '.'))
      (Token.mk .RPAREN ")") [true] [])
    rfl

end ClaimC3

section ParserProgress

/-- Fuel-indexed progress: whenever a grammar method returns normally from a
state whose lexer satisfies the cursor invariant, the invariant still holds
and the termination measure has not increased — strictly decreased for the
methods that always consume at least one token (`atom`, `literal` and the
three `term` methods, plus the entry point). -/
theorem parse_progress (fuel : Nat) :
    (∀ s b s', Inv s.lexer → atomF fuel s = .ok (b, s') →
      Inv s'.lexer ∧ meas s' < meas s) ∧
    (∀ s b s', Inv s.lexer → literalF fuel s = .ok (b, s') →
      Inv s'.lexer ∧ meas s' < meas s) ∧
    (∀ s b s', Inv s.lexer → andTailF fuel s = .ok (b, s') →
      Inv s'.lexer ∧ meas s' ≤ meas s) ∧
    (∀ s b s', Inv s.lexer → andTermF fuel s = .ok (b, s') →
      Inv s'.lexer ∧ meas s' < meas s) ∧
    (∀ s b s', Inv s.lexer → orTailF fuel s = .ok (b, s') →
      Inv s'.lexer ∧ meas s' ≤ meas s) ∧
    (∀ s b s', Inv s.lexer → orTermF fuel s = .ok (b, s') →
      Inv s'.lexer ∧ meas s' < meas s) ∧
    (∀ s b s', Inv s.lexer → implyTailF fuel s = .ok (b, s') →
      Inv s'.lexer ∧ meas s' ≤ meas s) ∧
    (∀ s b s', Inv s.lexer → implyTermF fuel s = .ok (b, s') →
      Inv s'.lexer ∧ meas s' < meas s) ∧
    (∀ s b s', Inv s.lexer → boolStmtF fuel s = .ok (b, s') →
      Inv s'.lexer ∧ meas s' < meas s) := by
  induction fuel with
  | zero =>
    refine ⟨?_, ?_, ?_, ?_, ?_, ?_, ?_, ?_, ?_⟩ <;>
      (intro s b s' _ h; cases h)
  | succ n ih =>
    obtain ⟨ihAtom, ihLit, ihAndTail, ihAndTerm, ihOrTail, ihOrTerm,
      ihImpTail, ihImpTerm, ihBool⟩ := ih
    have hAtom : ∀ s b s', Inv s.lexer → atomF (n + 1) s = .ok (b, s') →
        Inv s'.lexer ∧ meas s' < meas s := by
      intro s b s' hInv h
      simp only [atomF] at h
      by_cases h1 : s.currentToken.type = .TRUE
      · rw [if_pos h1] at h
        cases heat : eat .TRUE s with
        | error e => simp only [heat] at h; cases h
        | ok s1 =>
          simp only [heat] at h
          simp only [Except.ok.injEq, Prod.mk.injEq] at h
          obtain ⟨rfl, rfl⟩ := h
          obtain ⟨hi, hm, -, -⟩ := eat_progress hInv heat (by decide)
          exact ⟨hi, hm⟩
      rw [if_neg h1] at h
      by_cases h2 : s.currentToken.type = .FALSE
      · rw [if_pos h2] at h
        cases heat : eat .FALSE s with
        | error e => simp only [heat] at h; cases h
        | ok s1 =>
          simp only [heat] at h
          simp only [Except.ok.injEq, Prod.mk.injEq] at h
          obtain ⟨rfl, rfl⟩ := h
          obtain ⟨hi, hm, -, -⟩ := eat_progress hInv heat (by decide)
          exact ⟨hi, hm⟩
      rw [if_neg h2] at h
      by_cases h3 : s.currentToken.type = .LPAREN
      · rw [if_pos h3] at h
        cases heat : eat .LPAREN s with
        | error e => simp only [heat] at h; cases h
        | ok s1 =>
          simp only [heat] at h
          obtain ⟨hi1, hm1, -, -⟩ := eat_progress hInv heat (by decide)
          cases hit : implyTermF n s1 with
          | error e => simp only [hit] at h; cases h
          | ok p =>
            obtain ⟨b2, s2⟩ := p
            simp only [hit] at h
            obtain ⟨hi2, hm2⟩ := ihImpTerm s1 b2 s2 hi1 hit
            cases b2 with
            | false =>
              rw [if_neg (by decide)] at h
              simp only [Except.ok.injEq, Prod.mk.injEq] at h
              obtain ⟨rfl, rfl⟩ := h
              exact ⟨hi2, lt_trans hm2 hm1⟩
            | true =>
              rw [if_pos rfl] at h
              by_cases h4 : s2.currentToken.type = .RPAREN
              · rw [if_pos h4] at h
                cases heat2 : eat .RPAREN s2 with
                | error e => simp only [heat2] at h; cases h
                | ok s3 =>
                  simp only [heat2] at h
                  simp only [Except.ok.injEq, Prod.mk.injEq] at h
                  obtain ⟨rfl, rfl⟩ := h
                  obtain ⟨hi3, hm3, -, -⟩ := eat_progress hi2 heat2 (by decide)
                  exact ⟨hi3, lt_trans hm3 (lt_trans hm2 hm1)⟩
              · rw [if_neg h4] at h
                simp only [Except.ok.injEq, Prod.mk.injEq] at h
                obtain ⟨rfl, rfl⟩ := h
                exact ⟨hi2, lt_trans hm2 hm1⟩
      rw [if_neg h3] at h
      cases h
    have hLit : ∀ s b s', Inv s.lexer → literalF (n + 1) s = .ok (b, s') →
        Inv s'.lexer ∧ meas s' < meas s := by
      intro s b s' hInv h
      simp only [literalF] at h
      by_cases h1 : s.currentToken.type = .NOT
      · rw [if_pos h1] at h
        cases heat : eat .NOT s with
        | error e => simp only [heat] at h; cases h
        | ok s1 =>
          simp only [heat] at h
          obtain ⟨hi1, hm1, -, -⟩ := eat_progress hInv heat (by decide)
          cases hl : literalF n s1 with
          | error e => simp only [hl] at h; cases h
          | ok p =>
            obtain ⟨b2, s2⟩ := p
            simp only [hl] at h
            obtain ⟨hi2, hm2⟩ := ihLit s1 b2 s2 hi1 hl
            cases b2 with
            | false =>
              rw [if_neg (by decide)] at h
              simp only [Except.ok.injEq, Prod.mk.injEq] at h
              obtain ⟨rfl, rfl⟩ := h
              exact ⟨hi2, lt_trans hm2 hm1⟩
            | true =>
              rw [if_pos rfl] at h
              cases hp : spop (emit (.notC s2.stack.length) s2) with
              | error e => simp only [hp] at h; cases h
              | ok q =>
                obtain ⟨t, s3⟩ := q
                simp only [hp] at h
                simp only [Except.ok.injEq, Prod.mk.injEq] at h
                obtain ⟨rfl, rfl⟩ := h
                obtain ⟨hl3, -, -, -, hm3⟩ := spop_ok hp
                constructor
                · show Inv s3.lexer
                  rw [hl3]
                  exact hi2
                · show meas s3 < meas s
                  rw [hm3]
                  exact lt_trans hm2 hm1
      · rw [if_neg h1] at h
        cases ha : atomF n s with
        | error e => simp only [ha] at h; cases h
        | ok p =>
          obtain ⟨b2, s1⟩ := p
          simp only [ha] at h
          obtain ⟨hi1, hm1⟩ := ihAtom s b2 s1 hInv ha
          cases b2 with
          | true =>
            rw [if_pos rfl] at h
            simp only [Except.ok.injEq, Prod.mk.injEq] at h
            obtain ⟨rfl, rfl⟩ := h
            exact ⟨hi1, hm1⟩
          | false =>
            rw [if_neg (by decide)] at h
            cases h
    have hAndTail : ∀ s b s', Inv s.lexer →
        andTailF (n + 1) s = .ok (b, s') →
        Inv s'.lexer ∧ meas s' ≤ meas s := by
      intro s b s' hInv h
      simp only [andTailF] at h
      by_cases h1 : s.currentToken.type = .AND
      · rw [if_pos h1] at h
        cases heat : eat .AND s with
        | error e => simp only [heat] at h; cases h
        | ok s1 =>
          simp only [heat] at h
          obtain ⟨hi1, hm1, -, -⟩ := eat_progress hInv heat (by decide)
          cases hl : literalF n s1 with
          | error e => simp only [hl] at h; cases h
          | ok p =>
            obtain ⟨b2, s2⟩ := p
            simp only [hl] at h
            obtain ⟨hi2, hm2⟩ := ihLit s1 b2 s2 hi1 hl
            cases b2 with
            | false =>
              rw [if_neg (by decide)] at h
              simp only [Except.ok.injEq, Prod.mk.injEq] at h
              obtain ⟨rfl, rfl⟩ := h
              exact ⟨hi2, le_of_lt (lt_trans hm2 hm1)⟩
            | true =>
              rw [if_pos rfl] at h
              cases hp : spop (emit (.andC s2.stack.length) s2) with
              | error e => simp only [hp] at h; cases h
              | ok q =>
                obtain ⟨t2, s3⟩ := q
                simp only [hp] at h
                obtain ⟨hl3, -, -, -, hm3⟩ := spop_ok hp
                cases hp2 : spop s3 with
                | error e => simp only [hp2] at h; cases h
                | ok q2 =>
                  obtain ⟨t1, s4⟩ := q2
                  simp only [hp2] at h
                  obtain ⟨hl4, -, -, -, hm4⟩ := spop_ok hp2
                  cases hat : andTailF n (spush (t1 && t2) s4) with
                  | error e => simp only [hat] at h; cases h
                  | ok q3 =>
                    obtain ⟨b3, s5⟩ := q3
                    simp only [hat] at h
                    have hi4 : Inv (spush (t1 && t2) s4).lexer := by
                      show Inv s4.lexer
                      rw [hl4, hl3]
                      exact hi2
                    obtain ⟨hi5, hm5⟩ :=
                      ihAndTail (spush (t1 && t2) s4) b3 s5 hi4 hat
                    simp only [Except.ok.injEq, Prod.mk.injEq] at h
                    obtain ⟨rfl, rfl⟩ := h
                    refine ⟨hi5, ?_⟩
                    have hm5' : meas s5 ≤ meas s4 := hm5
                    have hm3' : meas s3 = meas s2 := hm3
                    omega
      · rw [if_neg h1] at h
        by_cases hsel : s.currentToken.type = .EOF ∨
            s.currentToken.type = .RPAREN ∨ s.currentToken.type = .OR ∨
            s.currentToken.type = .IMPLY
        · rw [if_pos hsel] at h
          simp only [Except.ok.injEq, Prod.mk.injEq] at h
          obtain ⟨rfl, rfl⟩ := h
          exact ⟨hInv, le_refl _⟩
        · rw [if_neg hsel] at h
          cases h
    have hAndTerm : ∀ s b s', Inv s.lexer →
        andTermF (n + 1) s = .ok (b, s') →
        Inv s'.lexer ∧ meas s' < meas s := by
      intro s b s' hInv h
      simp only [andTermF] at h
      cases hl : literalF n s with
      | error e => simp only [hl] at h; cases h
      | ok p =>
        obtain ⟨b1, s1⟩ := p
        simp only [hl] at h
        obtain ⟨hi1, hm1⟩ := ihLit s b1 s1 hInv hl
        cases b1 with
        | false => rw [if_neg (by decide)] at h; cases h
        | true =>
          rw [if_pos rfl] at h
          cases hat : andTailF n s1 with
          | error e => simp only [hat] at h; cases h
          | ok q =>
            obtain ⟨b2, s2⟩ := q
            simp only [hat] at h
            obtain ⟨hi2, hm2⟩ := ihAndTail s1 b2 s2 hi1 hat
            simp only [Except.ok.injEq, Prod.mk.injEq] at h
            obtain ⟨rfl, rfl⟩ := h
            exact ⟨hi2, lt_of_le_of_lt hm2 hm1⟩
    have hOrTail : ∀ s b s', Inv s.lexer →
        orTailF (n + 1) s = .ok (b, s') →
        Inv s'.lexer ∧ meas s' ≤ meas s := by
      intro s b s' hInv h
      simp only [orTailF] at h
      by_cases h1 : s.currentToken.type = .OR
      · rw [if_pos h1] at h
        cases heat : eat .OR s with
        | error e => simp only [heat] at h; cases h
        | ok s1 =>
          simp only [heat] at h
          obtain ⟨hi1, hm1, -, -⟩ := eat_progress hInv heat (by decide)
          cases hl : andTermF n s1 with
          | error e => simp only [hl] at h; cases h
          | ok p =>
            obtain ⟨b2, s2⟩ := p
            simp only [hl] at h
            obtain ⟨hi2, hm2⟩ := ihAndTerm s1 b2 s2 hi1 hl
            cases b2 with
            | false =>
              rw [if_neg (by decide)] at h
              simp only [Except.ok.injEq, Prod.mk.injEq] at h
              obtain ⟨rfl, rfl⟩ := h
              exact ⟨hi2, le_of_lt (lt_trans hm2 hm1)⟩
            | true =>
              rw [if_pos rfl] at h
              cases hot : orTailF n s2 with
              | error e => simp only [hot] at h; cases h
              | ok q =>
                obtain ⟨b3, s3⟩ := q
                simp only [hot] at h
                obtain ⟨hi3, hm3⟩ := ihOrTail s2 b3 s3 hi2 hot
                cases b3 with
                | false =>
                  rw [if_neg (by decide)] at h
                  simp only [Except.ok.injEq, Prod.mk.injEq] at h
                  obtain ⟨rfl, rfl⟩ := h
                  refine ⟨hi3, ?_⟩
                  omega
                | true =>
                  rw [if_pos rfl] at h
                  cases hp : spop (emit (.orC s3.stack.length) s3) with
                  | error e => simp only [hp] at h; cases h
                  | ok q2 =>
                    obtain ⟨t2, s4⟩ := q2
                    simp only [hp] at h
                    obtain ⟨hl4, -, -, -, hm4⟩ := spop_ok hp
                    cases hp2 : spop s4 with
                    | error e => simp only [hp2] at h; cases h
                    | ok q3 =>
                      obtain ⟨t1, s5⟩ := q3
                      simp only [hp2] at h
                      obtain ⟨hl5, -, -, -, hm5⟩ := spop_ok hp2
                      simp only [Except.ok.injEq, Prod.mk.injEq] at h
                      obtain ⟨rfl, rfl⟩ := h
                      constructor
                      · show Inv s5.lexer
                        rw [hl5, hl4]
                        exact hi3
                      · show meas s5 ≤ meas s
                        have hm4' : meas s4 = meas s3 := hm4
                        omega
      · rw [if_neg h1] at h
        by_cases hsel : s.currentToken.type = .IMPLY ∨
            s.currentToken.type = .EOF ∨ s.currentToken.type = .RPAREN
        · rw [if_pos hsel] at h
          simp only [Except.ok.injEq, Prod.mk.injEq] at h
          obtain ⟨rfl, rfl⟩ := h
          exact ⟨hInv, le_refl _⟩
        · rw [if_neg hsel] at h
          cases h
    have hOrTerm : ∀ s b s', Inv s.lexer →
        orTermF (n + 1) s = .ok (b, s') →
        Inv s'.lexer ∧ meas s' < meas s := by
      intro s b s' hInv h
      simp only [orTermF] at h
      cases hl : andTermF n s with
      | error e => simp only [hl] at h; cases h
      | ok p =>
        obtain ⟨b1, s1⟩ := p
        simp only [hl] at h
        obtain ⟨hi1, hm1⟩ := ihAndTerm s b1 s1 hInv hl
        cases b1 with
        | false => rw [if_neg (by decide)] at h; cases h
        | true =>
          rw [if_pos rfl] at h
          cases hot : orTailF n s1 with
          | error e => simp only [hot] at h; cases h
          | ok q =>
            obtain ⟨b2, s2⟩ := q
            simp only [hot] at h
            obtain ⟨hi2, hm2⟩ := ihOrTail s1 b2 s2 hi1 hot
            simp only [Except.ok.injEq, Prod.mk.injEq] at h
            obtain ⟨rfl, rfl⟩ := h
            exact ⟨hi2, lt_of_le_of_lt hm2 hm1⟩
    have hImpTail : ∀ s b s', Inv s.lexer →
        implyTailF (n + 1) s = .ok (b, s') →
        Inv s'.lexer ∧ meas s' ≤ meas s := by
      intro s b s' hInv h
      simp only [implyTailF] at h
      by_cases h1 : s.currentToken.type = .IMPLY
      · rw [if_pos h1] at h
        cases heat : eat .IMPLY s with
        | error e => simp only [heat] at h; cases h
        | ok s1 =>
          simp only [heat] at h
          obtain ⟨hi1, hm1, -, -⟩ := eat_progress hInv heat (by decide)
          cases hl : orTermF n s1 with
          | error e => simp only [hl] at h; cases h
          | ok p =>
            obtain ⟨b2, s2⟩ := p
            simp only [hl] at h
            obtain ⟨hi2, hm2⟩ := ihOrTerm s1 b2 s2 hi1 hl
            cases b2 with
            | false =>
              rw [if_neg (by decide)] at h
              simp only [Except.ok.injEq, Prod.mk.injEq] at h
              obtain ⟨rfl, rfl⟩ := h
              exact ⟨hi2, le_of_lt (lt_trans hm2 hm1)⟩
            | true =>
              rw [if_pos rfl] at h
              cases hot : implyTailF n s2 with
              | error e => simp only [hot] at h; cases h
              | ok q =>
                obtain ⟨b3, s3⟩ := q
                simp only [hot] at h
                obtain ⟨hi3, hm3⟩ := ihImpTail s2 b3 s3 hi2 hot
                cases b3 with
                | false =>
                  rw [if_neg (by decide)] at h
                  simp only [Except.ok.injEq, Prod.mk.injEq] at h
                  obtain ⟨rfl, rfl⟩ := h
                  refine ⟨hi3, ?_⟩
                  omega
                | true =>
                  rw [if_pos rfl] at h
                  cases hp : spop (emit (.impC s3.stack.length) s3) with
                  | error e => simp only [hp] at h; cases h
                  | ok q2 =>
                    obtain ⟨t2, s4⟩ := q2
                    simp only [hp] at h
                    obtain ⟨hl4, -, -, -, hm4⟩ := spop_ok hp
                    cases hp2 : spop s4 with
                    | error e => simp only [hp2] at h; cases h
                    | ok q3 =>
                      obtain ⟨t1, s5⟩ := q3
                      simp only [hp2] at h
                      obtain ⟨hl5, -, -, -, hm5⟩ := spop_ok hp2
                      simp only [Except.ok.injEq, Prod.mk.injEq] at h
                      obtain ⟨rfl, rfl⟩ := h
                      constructor
                      · show Inv s5.lexer
                        rw [hl5, hl4]
                        exact hi3
                      · show meas s5 ≤ meas s
                        have hm4' : meas s4 = meas s3 := hm4
                        omega
      · rw [if_neg h1] at h
        by_cases hsel : s.currentToken.type = .EOF ∨
            s.currentToken.type = .RPAREN
        · rw [if_pos hsel] at h
          simp only [Except.ok.injEq, Prod.mk.injEq] at h
          obtain ⟨rfl, rfl⟩ := h
          exact ⟨hInv, le_refl _⟩
        · rw [if_neg hsel] at h
          cases h
    have hImpTerm : ∀ s b s', Inv s.lexer →
        implyTermF (n + 1) s = .ok (b, s') →
        Inv s'.lexer ∧ meas s' < meas s := by
      intro s b s' hInv h
      simp only [implyTermF] at h
      cases hl : orTermF n s with
      | error e => simp only [hl] at h; cases h
      | ok p =>
        obtain ⟨b1, s1⟩ := p
        simp only [hl] at h
        obtain ⟨hi1, hm1⟩ := ihOrTerm s b1 s1 hInv hl
        cases b1 with
        | false => rw [if_neg (by decide)] at h; cases h
        | true =>
          rw [if_pos rfl] at h
          cases hot : implyTailF n s1 with
          | error e => simp only [hot] at h; cases h
          | ok q =>
            obtain ⟨b2, s2⟩ := q
            simp only [hot] at h
            obtain ⟨hi2, hm2⟩ := ihImpTail s1 b2 s2 hi1 hot
            simp only [Except.ok.injEq, Prod.mk.injEq] at h
            obtain ⟨rfl, rfl⟩ := h
            exact ⟨hi2, lt_of_le_of_lt hm2 hm1⟩
    have hBool : ∀ s b s', Inv s.lexer →
        boolStmtF (n + 1) s = .ok (b, s') →
        Inv s'.lexer ∧ meas s' < meas s := by
      intro s b s' hInv h
      simp only [boolStmtF] at h
      cases hl : implyTermF n s with
      | error e => simp only [hl] at h; cases h
      | ok p =>
        obtain ⟨b1, s1⟩ := p
        simp only [hl] at h
        obtain ⟨hi1, hm1⟩ := ihImpTerm s b1 s1 hInv hl
        cases b1 with
        | false => rw [if_neg (by decide)] at h; cases h
        | true =>
          rw [if_pos rfl] at h
          by_cases he : s1.currentToken.type = .EOF
          · rw [if_pos he] at h
            simp only [Except.ok.injEq, Prod.mk.injEq] at h
            obtain ⟨rfl, rfl⟩ := h
            exact ⟨hi1, hm1⟩
          · rw [if_neg he] at h
            simp only [Except.ok.injEq, Prod.mk.injEq] at h
            obtain ⟨rfl, rfl⟩ := h
            exact ⟨hi1, hm1⟩
    exact ⟨hAtom, hLit, hAndTail, hAndTerm, hOrTail, hOrTerm,
      hImpTail, hImpTerm, hBool⟩

end ParserProgress

section Termination

theorem ok_ne_noFuel {x : Bool × PState} :
    (Except.ok x : Except PErr (Bool × PState)) ≠ .error .noFuel := by
  intro hc; cases hc

/-- Fuel sufficiency: with fuel at least `6 * meas s + c` (a small constant
`c` per grammar method), no grammar method ever reports fuel exhaustion —
the shallow counterpart of the claim that every grammar recursion consumes
input before recursing. -/
theorem no_noFuel (fuel : Nat) : ∀ s : PState, Inv s.lexer →
    (6 * meas s + 1 ≤ fuel → atomF fuel s ≠ .error .noFuel) ∧
    (6 * meas s + 2 ≤ fuel → literalF fuel s ≠ .error .noFuel) ∧
    (6 * meas s + 1 ≤ fuel → andTailF fuel s ≠ .error .noFuel) ∧
    (6 * meas s + 3 ≤ fuel → andTermF fuel s ≠ .error .noFuel) ∧
    (6 * meas s + 1 ≤ fuel → orTailF fuel s ≠ .error .noFuel) ∧
    (6 * meas s + 4 ≤ fuel → orTermF fuel s ≠ .error .noFuel) ∧
    (6 * meas s + 1 ≤ fuel → implyTailF fuel s ≠ .error .noFuel) ∧
    (6 * meas s + 5 ≤ fuel → implyTermF fuel s ≠ .error .noFuel) ∧
    (6 * meas s + 6 ≤ fuel → boolStmtF fuel s ≠ .error .noFuel) := by
  induction fuel with
  | zero =>
    intro s _
    refine ⟨?_, ?_, ?_, ?_, ?_, ?_, ?_, ?_, ?_⟩ <;>
      (intro hcond; exact absurd hcond (by omega))
  | succ n ih =>
    intro s hInv
    have hAtom : 6 * meas s + 1 ≤ n + 1 → atomF (n + 1) s ≠ .error .noFuel := by
      intro hcond hcon
      simp only [atomF] at hcon
      by_cases h1 : s.currentToken.type = .TRUE
      · rw [if_pos h1] at hcon
        cases heat : eat .TRUE s with
        | error e =>
          simp only [heat] at hcon
          injection hcon with hcon
          exact eat_err_ne_noFuel heat hcon
        | ok s1 => simp only [heat] at hcon; cases hcon
      rw [if_neg h1] at hcon
      by_cases h2 : s.currentToken.type = .FALSE
      · rw [if_pos h2] at hcon
        cases heat : eat .FALSE s with
        | error e =>
          simp only [heat] at hcon
          injection hcon with hcon
          exact eat_err_ne_noFuel heat hcon
        | ok s1 => simp only [heat] at hcon; cases hcon
      rw [if_neg h2] at hcon
      by_cases h3 : s.currentToken.type = .LPAREN
      · rw [if_pos h3] at hcon
        cases heat : eat .LPAREN s with
        | error e =>
          simp only [heat] at hcon
          injection hcon with hcon
          exact eat_err_ne_noFuel heat hcon
        | ok s1 =>
          simp only [heat] at hcon
          obtain ⟨hi1, hm1, -, -⟩ := eat_progress hInv heat (by decide)
          have hIT : implyTermF n s1 ≠ .error .noFuel :=
            (ih s1 hi1).2.2.2.2.2.2.2.1 (by omega)
          cases hit : implyTermF n s1 with
          | error e =>
            simp only [hit] at hcon
            injection hcon with hcon
            subst hcon
            exact hIT hit
          | ok p =>
            obtain ⟨b2, s2⟩ := p
            simp only [hit] at hcon
            cases b2 with
            | false => rw [if_neg (by decide)] at hcon; cases hcon
            | true =>
              rw [if_pos rfl] at hcon
              by_cases h4 : s2.currentToken.type = .RPAREN
              · rw [if_pos h4] at hcon
                cases heat2 : eat .RPAREN s2 with
                | error e =>
                  simp only [heat2] at hcon
                  injection hcon with hcon
                  exact eat_err_ne_noFuel heat2 hcon
                | ok s3 => simp only [heat2] at hcon; cases hcon
              · rw [if_neg h4] at hcon; cases hcon
      rw [if_neg h3] at hcon
      injection hcon with hcon
      cases hcon
    have hLit : 6 * meas s + 2 ≤ n + 1 →
        literalF (n + 1) s ≠ .error .noFuel := by
      intro hcond hcon
      simp only [literalF] at hcon
      by_cases h1 : s.currentToken.type = .NOT
      · rw [if_pos h1] at hcon
        cases heat : eat .NOT s with
        | error e =>
          simp only [heat] at hcon
          injection hcon with hcon
          exact eat_err_ne_noFuel heat hcon
        | ok s1 =>
          simp only [heat] at hcon
          obtain ⟨hi1, hm1, -, -⟩ := eat_progress hInv heat (by decide)
          have hL : literalF n s1 ≠ .error .noFuel :=
            (ih s1 hi1).2.1 (by omega)
          cases hl : literalF n s1 with
          | error e =>
            simp only [hl] at hcon
            injection hcon with hcon
            subst hcon
            exact hL hl
          | ok p =>
            obtain ⟨b2, s2⟩ := p
            simp only [hl] at hcon
            cases b2 with
            | false => rw [if_neg (by decide)] at hcon; cases hcon
            | true =>
              rw [if_pos rfl] at hcon
              cases hp : spop (emit (.notC s2.stack.length) s2) with
              | error e =>
                simp only [hp] at hcon
                injection hcon with hcon
                subst hcon
                unfold spop at hp
                cases hst : (emit (.notC s2.stack.length) s2).stack with
                | nil => simp only [hst] at hp; cases hp
                | cons b3 rest => simp only [hst] at hp; cases hp
              | ok q =>
                obtain ⟨t, s3⟩ := q
                simp only [hp] at hcon
                cases hcon
      · rw [if_neg h1] at hcon
        have hA : atomF n s ≠ .error .noFuel := (ih s hInv).1 (by omega)
        cases ha : atomF n s with
        | error e =>
          simp only [ha] at hcon
          injection hcon with hcon
          subst hcon
          exact hA ha
        | ok p =>
          obtain ⟨b2, s1⟩ := p
          simp only [ha] at hcon
          cases b2 with
          | true => rw [if_pos rfl] at hcon; cases hcon
          | false =>
            rw [if_neg (by decide)] at hcon
            injection hcon with hcon
            cases hcon
    have hAndTail : 6 * meas s + 1 ≤ n + 1 →
        andTailF (n + 1) s ≠ .error .noFuel := by
      intro hcond hcon
      simp only [andTailF] at hcon
      by_cases h1 : s.currentToken.type = .AND
      · rw [if_pos h1] at hcon
        cases heat : eat .AND s with
        | error e =>
          simp only [heat] at hcon
          injection hcon with hcon
          exact eat_err_ne_noFuel heat hcon
        | ok s1 =>
          simp only [heat] at hcon
          obtain ⟨hi1, hm1, -, -⟩ := eat_progress hInv heat (by decide)
          have hL : literalF n s1 ≠ .error .noFuel :=
            (ih s1 hi1).2.1 (by omega)
          cases hl : literalF n s1 with
          | error e =>
            simp only [hl] at hcon
            injection hcon with hcon
            subst hcon
            exact hL hl
          | ok p =>
            obtain ⟨b2, s2⟩ := p
            simp only [hl] at hcon
            obtain ⟨hi2, hm2⟩ := (parse_progress n).2.1 s1 b2 s2 hi1 hl
            cases b2 with
            | false => rw [if_neg (by decide)] at hcon; cases hcon
            | true =>
              rw [if_pos rfl] at hcon
              cases hp : spop (emit (.andC s2.stack.length) s2) with
              | error e =>
                simp only [hp] at hcon
                injection hcon with hcon
                subst hcon
                unfold spop at hp
                cases hst : (emit (.andC s2.stack.length) s2).stack with
                | nil => simp only [hst] at hp; cases hp
                | cons b3 rest => simp only [hst] at hp; cases hp
              | ok q =>
                obtain ⟨t2, s3⟩ := q
                simp only [hp] at hcon
                obtain ⟨hl3, -, -, -, hm3⟩ := spop_ok hp
                cases hp2 : spop s3 with
                | error e =>
                  simp only [hp2] at hcon
                  injection hcon with hcon
                  subst hcon
                  unfold spop at hp2
                  cases hst : s3.stack with
                  | nil => simp only [hst] at hp2; cases hp2
                  | cons b3 rest => simp only [hst] at hp2; cases hp2
                | ok q2 =>
                  obtain ⟨t1, s4⟩ := q2
                  simp only [hp2] at hcon
                  obtain ⟨hl4, -, -, -, hm4⟩ := spop_ok hp2
                  have hi4 : Inv (spush (t1 && t2) s4).lexer := by
                    show Inv s4.lexer
                    rw [hl4, hl3]
                    exact hi2
                  have hmeq : meas (spush (t1 && t2) s4) = meas s2 := by
                    show meas s4 = meas s2
                    rw [hm4, hm3, meas_emit]
                  have hT : andTailF n (spush (t1 && t2) s4) ≠ .error .noFuel :=
                    (ih (spush (t1 && t2) s4) hi4).2.2.1 (by omega)
                  cases hat : andTailF n (spush (t1 && t2) s4) with
                  | error e =>
                    simp only [hat] at hcon
                    injection hcon with hcon
                    subst hcon
                    exact hT hat
                  | ok q3 =>
                    obtain ⟨b3, s5⟩ := q3
                    simp only [hat] at hcon
                    cases hcon
      · rw [if_neg h1] at hcon
        by_cases hsel : s.currentToken.type = .EOF ∨
            s.currentToken.type = .RPAREN ∨ s.currentToken.type = .OR ∨
            s.currentToken.type = .IMPLY
        · rw [if_pos hsel] at hcon; cases hcon
        · rw [if_neg hsel] at hcon
          injection hcon with hcon
          cases hcon
    have hAndTerm : 6 * meas s + 3 ≤ n + 1 →
        andTermF (n + 1) s ≠ .error .noFuel := by
      intro hcond hcon
      simp only [andTermF] at hcon
      have hL : literalF n s ≠ .error .noFuel := (ih s hInv).2.1 (by omega)
      cases hl : literalF n s with
      | error e =>
        simp only [hl] at hcon
        injection hcon with hcon
        subst hcon
        exact hL hl
      | ok p =>
        obtain ⟨b1, s1⟩ := p
        simp only [hl] at hcon
        obtain ⟨hi1, hm1⟩ := (parse_progress n).2.1 s b1 s1 hInv hl
        cases b1 with
        | false =>
          rw [if_neg (by decide)] at hcon
          injection hcon with hcon
          cases hcon
        | true =>
          rw [if_pos rfl] at hcon
          have hT : andTailF n s1 ≠ .error .noFuel :=
            (ih s1 hi1).2.2.1 (by omega)
          cases hat : andTailF n s1 with
          | error e =>
            simp only [hat] at hcon
            injection hcon with hcon
            subst hcon
            exact hT hat
          | ok q =>
            obtain ⟨b2, s2⟩ := q
            simp only [hat] at hcon
            cases hcon
    have hOrTail : 6 * meas s + 1 ≤ n + 1 →
        orTailF (n + 1) s ≠ .error .noFuel := by
      intro hcond hcon
      simp only [orTailF] at hcon
      by_cases h1 : s.currentToken.type = .OR
      · rw [if_pos h1] at hcon
        cases heat : eat .OR s with
        | error e =>
          simp only [heat] at hcon
          injection hcon with hcon
          exact eat_err_ne_noFuel heat hcon
        | ok s1 =>
          simp only [heat] at hcon
          obtain ⟨hi1, hm1, -, -⟩ := eat_progress hInv heat (by decide)
          have hL : andTermF n s1 ≠ .error .noFuel :=
            (ih s1 hi1).2.2.2.1 (by omega)
          cases hl : andTermF n s1 with
          | error e =>
            simp only [hl] at hcon
            injection hcon with hcon
            subst hcon
            exact hL hl
          | ok p =>
            obtain ⟨b2, s2⟩ := p
            simp only [hl] at hcon
            obtain ⟨hi2, hm2⟩ := (parse_progress n).2.2.2.1 s1 b2 s2 hi1 hl
            cases b2 with
            | false => rw [if_neg (by decide)] at hcon; cases hcon
            | true =>
              rw [if_pos rfl] at hcon
              have hT : orTailF n s2 ≠ .error .noFuel :=
                (ih s2 hi2).2.2.2.2.1 (by omega)
              cases hot : orTailF n s2 with
              | error e =>
                simp only [hot] at hcon
                injection hcon with hcon
                subst hcon
                exact hT hot
              | ok q =>
                obtain ⟨b3, s3⟩ := q
                simp only [hot] at hcon
                cases b3 with
                | false => rw [if_neg (by decide)] at hcon; cases hcon
                | true =>
                  rw [if_pos rfl] at hcon
                  cases hp : spop (emit (.orC s3.stack.length) s3) with
                  | error e =>
                    simp only [hp] at hcon
                    injection hcon with hcon
                    subst hcon
                    unfold spop at hp
                    cases hst : (emit (.orC s3.stack.length) s3).stack with
                    | nil => simp only [hst] at hp; cases hp
                    | cons b4 rest => simp only [hst] at hp; cases hp
                  | ok q2 =>
                    obtain ⟨t2, s4⟩ := q2
                    simp only [hp] at hcon
                    cases hp2 : spop s4 with
                    | error e =>
                      simp only [hp2] at hcon
                      injection hcon with hcon
                      subst hcon
                      unfold spop at hp2
                      cases hst : s4.stack with
                      | nil => simp only [hst] at hp2; cases hp2
                      | cons b4 rest => simp only [hst] at hp2; cases hp2
                    | ok q3 =>
                      obtain ⟨t1, s5⟩ := q3
                      simp only [hp2] at hcon
                      cases hcon
      · rw [if_neg h1] at hcon
        by_cases hsel : s.currentToken.type = .IMPLY ∨
            s.currentToken.type = .EOF ∨ s.currentToken.type = .RPAREN
        · rw [if_pos hsel] at hcon; cases hcon
        · rw [if_neg hsel] at hcon
          injection hcon with hcon
          cases hcon
    have hOrTerm : 6 * meas s + 4 ≤ n + 1 →
        orTermF (n + 1) s ≠ .error .noFuel := by
      intro hcond hcon
      simp only [orTermF] at hcon
      have hL : andTermF n s ≠ .error .noFuel := (ih s hInv).2.2.2.1 (by omega)
      cases hl : andTermF n s with
      | error e =>
        simp only [hl] at hcon
        injection hcon with hcon
        subst hcon
        exact hL hl
      | ok p =>
        obtain ⟨b1, s1⟩ := p
        simp only [hl] at hcon
        obtain ⟨hi1, hm1⟩ := (parse_progress n).2.2.2.1 s b1 s1 hInv hl
        cases b1 with
        | false =>
          rw [if_neg (by decide)] at hcon
          injection hcon with hcon
          cases hcon
        | true =>
          rw [if_pos rfl] at hcon
          have hT : orTailF n s1 ≠ .error .noFuel :=
            (ih s1 hi1).2.2.2.2.1 (by omega)
          cases hot : orTailF n s1 with
          | error e =>
            simp only [hot] at hcon
            injection hcon with hcon
            subst hcon
            exact hT hot
          | ok q =>
            obtain ⟨b2, s2⟩ := q
            simp only [hot] at hcon
            cases hcon
    have hImpTail : 6 * meas s + 1 ≤ n + 1 →
        implyTailF (n + 1) s ≠ .error .noFuel := by
      intro hcond hcon
      simp only [implyTailF] at hcon
      by_cases h1 : s.currentToken.type = .IMPLY
      · rw [if_pos h1] at hcon
        cases heat : eat .IMPLY s with
        | error e =>
          simp only [heat] at hcon
          injection hcon with hcon
          exact eat_err_ne_noFuel heat hcon
        | ok s1 =>
          simp only [heat] at hcon
          obtain ⟨hi1, hm1, -, -⟩ := eat_progress hInv heat (by decide)
          have hL : orTermF n s1 ≠ .error .noFuel :=
            (ih s1 hi1).2.2.2.2.2.1 (by omega)
          cases hl : orTermF n s1 with
          | error e =>
            simp only [hl] at hcon
            injection hcon with hcon
            subst hcon
            exact hL hl
          | ok p =>
            obtain ⟨b2, s2⟩ := p
            simp only [hl] at hcon
            obtain ⟨hi2, hm2⟩ := (parse_progress n).2.2.2.2.2.1 s1 b2 s2 hi1 hl
            cases b2 with
            | false => rw [if_neg (by decide)] at hcon; cases hcon
            | true =>
              rw [if_pos rfl] at hcon
              have hT : implyTailF n s2 ≠ .error .noFuel :=
                (ih s2 hi2).2.2.2.2.2.2.1 (by omega)
              cases hot : implyTailF n s2 with
              | error e =>
                simp only [hot] at hcon
                injection hcon with hcon
                subst hcon
                exact hT hot
              | ok q =>
                obtain ⟨b3, s3⟩ := q
                simp only [hot] at hcon
                cases b3 with
                | false => rw [if_neg (by decide)] at hcon; cases hcon
                | true =>
                  rw [if_pos rfl] at hcon
                  cases hp : spop (emit (.impC s3.stack.length) s3) with
                  | error e =>
                    simp only [hp] at hcon
                    injection hcon with hcon
                    subst hcon
                    unfold spop at hp
                    cases hst : (emit (.impC s3.stack.length) s3).stack with
                    | nil => simp only [hst] at hp; cases hp
                    | cons b4 rest => simp only [hst] at hp; cases hp
                  | ok q2 =>
                    obtain ⟨t2, s4⟩ := q2
                    simp only [hp] at hcon
                    cases hp2 : spop s4 with
                    | error e =>
                      simp only [hp2] at hcon
                      injection hcon with hcon
                      subst hcon
                      unfold spop at hp2
                      cases hst : s4.stack with
                      | nil => simp only [hst] at hp2; cases hp2
                      | cons b4 rest => simp only [hst] at hp2; cases hp2
                    | ok q3 =>
                      obtain ⟨t1, s5⟩ := q3
                      simp only [hp2] at hcon
                      cases hcon
      · rw [if_neg h1] at hcon
        by_cases hsel : s.currentToken.type = .EOF ∨
            s.currentToken.type = .RPAREN
        · rw [if_pos hsel] at hcon; cases hcon
        · rw [if_neg hsel] at hcon
          injection hcon with hcon
          cases hcon
    have hImpTerm : 6 * meas s + 5 ≤ n + 1 →
        implyTermF (n + 1) s ≠ .error .noFuel := by
      intro hcond hcon
      simp only [implyTermF] at hcon
      have hL : orTermF n s ≠ .error .noFuel :=
        (ih s hInv).2.2.2.2.2.1 (by omega)
      cases hl : orTermF n s with
      | error e =>
        simp only [hl] at hcon
        injection hcon with hcon
        subst hcon
        exact hL hl
      | ok p =>
        obtain ⟨b1, s1⟩ := p
        simp only [hl] at hcon
        obtain ⟨hi1, hm1⟩ := (parse_progress n).2.2.2.2.2.1 s b1 s1 hInv hl
        cases b1 with
        | false =>
          rw [if_neg (by decide)] at hcon
          injection hcon with hcon
          cases hcon
        | true =>
          rw [if_pos rfl] at hcon
          have hT : implyTailF n s1 ≠ .error .noFuel :=
            (ih s1 hi1).2.2.2.2.2.2.1 (by omega)
          cases hot : implyTailF n s1 with
          | error e =>
            simp only [hot] at hcon
            injection hcon with hcon
            subst hcon
            exact hT hot
          | ok q =>
            obtain ⟨b2, s2⟩ := q
            simp only [hot] at hcon
            cases hcon
    have hBool : 6 * meas s + 6 ≤ n + 1 →
        boolStmtF (n + 1) s ≠ .error .noFuel := by
      intro hcond hcon
      simp only [boolStmtF] at hcon
      have hL : implyTermF n s ≠ .error .noFuel :=
        (ih s hInv).2.2.2.2.2.2.2.1 (by omega)
      cases hl : implyTermF n s with
      | error e =>
        simp only [hl] at hcon
        injection hcon with hcon
        subst hcon
        exact hL hl
      | ok p =>
        obtain ⟨b1, s1⟩ := p
        simp only [hl] at hcon
        cases b1 with
        | false =>
          rw [if_neg (by decide)] at hcon
          injection hcon with hcon
          cases hcon
        | true =>
          rw [if_pos rfl] at hcon
          by_cases he : s1.currentToken.type = .EOF
          · rw [if_pos he] at hcon; cases hcon
          · rw [if_neg he] at hcon; cases hcon
    exact ⟨hAtom, hLit, hAndTail, hAndTerm, hOrTail, hOrTerm,
      hImpTail, hImpTerm, hBool⟩

end Termination

section ClaimC8

theorem init_text {text : List Char} {l : Lexer}
    (h : Lexer.init text = .ok l) : l.text = text := by
  cases text with
  | nil => cases h
  | cons c cs =>
    simp only [Lexer.init] at h
    cases h
    rfl

theorem evaluate_ne_noFuel (text : List Char) :
    evaluate text ≠ .error .noFuel := by
  intro hc
  unfold evaluate evaluateF at hc
  cases hinit : Lexer.init text with
  | error e =>
    simp only [hinit] at hc
    injection hc with hc
    subst hc
    cases text with
    | nil =>
      simp only [Lexer.init] at hinit
      injection hinit with h2
      cases h2
    | cons c cs => simp only [Lexer.init] at hinit; cases hinit
  | ok l =>
    have hInv := inv_init hinit
    simp only [hinit] at hc
    cases hii : interpInit l with
    | error e =>
      simp only [hii] at hc
      injection hc with hc
      subst hc
      unfold interpInit at hii
      cases hg : l.getNextToken with
      | error e2 =>
        simp only [hg] at hii
        injection hii with hii
        subst hii
        exact gnt_ne_noFuel l hg
      | ok p => simp only [hg] at hii; cases hii
    | ok s0 =>
      simp only [hii] at hc
      have hs0 : Inv s0.lexer ∧ s0.lexer.text = text := by
        unfold interpInit at hii
        cases hg : l.getNextToken with
        | error e2 => simp only [hg] at hii; cases hii
        | ok p =>
          obtain ⟨t, l1⟩ := p
          simp only [hg] at hii
          injection hii with hii
          subst hii
          have hgi := gnt_inv hInv hg
          exact ⟨hgi.1, hgi.2.2.2.trans (init_text hinit)⟩
      obtain ⟨hInv0, htext0⟩ := hs0
      have hm0 : meas s0 ≤ text.length + 1 := by
        unfold meas
        have hp := hInv0.1
        rw [htext0] at hp ⊢
        have hw : (if s0.currentToken.type = .EOF then 0 else 1) ≤ 1 := by
          split <;> omega
        omega
      have hB := (no_noFuel (6 * (text.length + 2)) s0 hInv0).2.2.2.2.2.2.2.2
        (by omega)
      unfold evalF at hc
      cases hb : boolStmtF (6 * (text.length + 2)) s0 with
      | error e =>
        simp only [hb] at hc
        injection hc with hc
        subst hc
        exact hB hb
      | ok p =>
        obtain ⟨b, s1⟩ := p
        simp only [hb] at hc
        cases b with
        | true => rw [if_pos rfl] at hc; cases hc
        | false => rw [if_neg (by decide)] at hc; cases hc

/-- C8: for every input text, `eval` terminates: run with the default fuel
(linear in the input length), the whole pipeline never reports fuel
exhaustion — the grammar recursions always bottom out because each one
consumes input before recursing (`no_noFuel`/`parse_progress`). -/
theorem c8_eval_terminates (text : List Char) :
    evaluate text ≠ .error .noFuel :=
  evaluate_ne_noFuel text

end ClaimC8

section Completeness

theorem tokensChars_append (a b : List Token) :
    tokensChars (a ++ b) = tokensChars a ++ tokensChars b := by
  induction a with
  | nil => rfl
  | cons t tr ih => simp [tokensChars, ih]

theorem readsOne_head {t : Token} (h : HeadTok t) (rest : List Char) :
    ReadsOne (tokChars t.type ++ rest) t rest := by
  rcases h with rfl | rfl | rfl | rfl
  · exact ReadsOne.tru rest
  · exact ReadsOne.fls rest
  · exact ReadsOne.neg rest
  · exact ReadsOne.lp rest

theorem atom_first {ts : List Token} (h : Deriv .atomE ts) :
    ∃ t tr, ts = t :: tr ∧ AtomHead t := by
  cases h with
  | atomTrue => exact ⟨_, _, rfl, .inl rfl⟩
  | atomFalse => exact ⟨_, _, rfl, .inr (.inl rfl)⟩
  | atomParen h1 => exact ⟨_, _, rfl, .inr (.inr rfl)⟩

theorem lit_first {ts : List Token} (h : Deriv .lit ts) :
    ∃ t tr, ts = t :: tr ∧ HeadTok t := by
  cases h with
  | litNot h1 => exact ⟨_, _, rfl, .inr (.inr (.inl rfl))⟩
  | litAtom h1 =>
    obtain ⟨t, tr, rfl, hh⟩ := atom_first h1
    rcases hh with rfl | rfl | rfl
    · exact ⟨_, _, rfl, .inl rfl⟩
    · exact ⟨_, _, rfl, .inr (.inl rfl)⟩
    · exact ⟨_, _, rfl, .inr (.inr (.inr rfl))⟩

theorem and_first {ts : List Token} (h : Deriv .andE ts) :
    ∃ t tr, ts = t :: tr ∧ HeadTok t := by
  cases h with
  | andE h1 h2 =>
    obtain ⟨t, tr, rfl, hh⟩ := lit_first h1
    exact ⟨t, _, rfl, hh⟩

theorem or_first {ts : List Token} (h : Deriv .orE ts) :
    ∃ t tr, ts = t :: tr ∧ HeadTok t := by
  cases h with
  | orE h1 h2 =>
    obtain ⟨t, tr, rfl, hh⟩ := and_first h1
    exact ⟨t, _, rfl, hh⟩

theorem imply_first {ts : List Token} (h : Deriv .imply ts) :
    ∃ t tr, ts = t :: tr ∧ HeadTok t := by
  cases h with
  | imply h1 h2 =>
    obtain ⟨t, tr, rfl, hh⟩ := or_first h1
    exact ⟨t, _, rfl, hh⟩

theorem andTail_shape {ts : List Token} (h : Deriv .andTail ts) :
    ts = [] ∨ ∃ tr, ts = Token.mk .AND "^" :: tr := by
  cases h with
  | andTailStep h1 h2 => exact .inr ⟨_, rfl⟩
  | andTailEps => exact .inl rfl

theorem orTail_shape {ts : List Token} (h : Deriv .orTail ts) :
    ts = [] ∨ ∃ tr, ts = Token.mk .OR "v" :: tr := by
  cases h with
  | orTailStep h1 h2 => exact .inr ⟨_, rfl⟩
  | orTailEps => exact .inl rfl

theorem implyTail_shape {ts : List Token} (h : Deriv .implyTail ts) :
    ts = [] ∨ ∃ tr, ts = Token.mk .IMPLY "->" :: tr := by
  cases h with
  | implyTailStep h1 h2 => exact .inr ⟨_, rfl⟩
  | implyTailEps => exact .inl rfl

/-- Uniformly produce, for the text `tokensChars ts2 ++ ur`, the next token
the lexer will deliver (the head of `ts2`, or the overall follow token `u`
when `ts2` is empty), together with the fact that a parser state holding
that token with the matching remainder is positioned `At` the chunk
`ts2`. -/
theorem next_config (P : Token → Prop) {ts2 : List Token} {u : Token}
    {ur r' : List Char} (hro : ReadsOne ur u r') (hPu : P u)
    (hshape : ts2 = [] ∨ ∃ t2 tr2, ts2 = t2 :: tr2 ∧
      (∀ rest, ReadsOne (tokChars t2.type ++ rest) t2 rest) ∧ P t2) :
    ∃ u2 r2, ReadsOne (tokensChars ts2 ++ ur) u2 r2 ∧ P u2 ∧
      ∀ s5 : PState, Inv s5.lexer → s5.currentToken = u2 →
        s5.lexer.rem = r2 → At s5 ts2 u ur r' := by
  rcases hshape with rfl | ⟨t2, tr2, rfl, hread, hPt⟩
  · exact ⟨u, r', (show ReadsOne (tokensChars [] ++ ur) u r' from hro), hPu,
      fun s5 hi hc hr => ⟨hi, hro, hc, hr⟩⟩
  · refine ⟨t2, tokensChars tr2 ++ ur, ?_, hPt,
      fun s5 hi hc hr => ⟨hi, hro, hc, hr⟩⟩
    have he : tokensChars (t2 :: tr2) ++ ur =
        tokChars t2.type ++ (tokensChars tr2 ++ ur) := by
      simp [tokensChars]
    rw [he]
    exact hread _

theorem followOr_of_followImply {u : Token} (h : FollowImply u) :
    FollowOr u :=
  h.elim (fun h1 => .inr (.inl h1)) (fun h1 => .inr (.inr h1))

theorem followAnd_of_followOr {u : Token} (h : FollowOr u) : FollowAnd u :=
  h.elim (fun h1 => .inr (.inl h1))
    (fun h2 => h2.elim (fun h1 => .inr (.inr (.inl h1)))
      (fun h1 => .inr (.inr (.inr h1))))

/-- Completeness of the recursive-descent parser/evaluator: positioned at a
chunk derived from a nonterminal of the spec grammar (with a follow token in
the rule's selection set), the corresponding grammar method succeeds,
consumes exactly the chunk, and pushes exactly one combined value. -/
theorem deriv_complete {r : GRule} {ts : List Token} (h : Deriv r ts) :
    Motive r ts := by
  induction h with
  | atomTrue =>
    intro s u ur r' hAt
    obtain ⟨hInv, hro, hcur, hrem⟩ := hAt
    obtain ⟨l', heat, hi', hr'⟩ := eat_at (show _ = TokType.TRUE by rw [hcur])
      hInv (by rw [hrem]; exact hro)
    refine ⟨spush true { s with lexer := l', currentToken := u }, true,
      ⟨1, ?_⟩, ⟨hi', rfl, hr'⟩, rfl⟩
    intro f hf
    cases f with
    | zero => omega
    | succ m =>
      simp only [atomF]
      rw [if_pos (show s.currentToken.type = .TRUE by rw [hcur])]
      simp only [heat]
  | atomFalse =>
    intro s u ur r' hAt
    obtain ⟨hInv, hro, hcur, hrem⟩ := hAt
    obtain ⟨l', heat, hi', hr'⟩ := eat_at (show _ = TokType.FALSE by rw [hcur])
      hInv (by rw [hrem]; exact hro)
    refine ⟨spush false { s with lexer := l', currentToken := u }, false,
      ⟨1, ?_⟩, ⟨hi', rfl, hr'⟩, rfl⟩
    intro f hf
    cases f with
    | zero => omega
    | succ m =>
      simp only [atomF]
      rw [if_neg (show ¬ s.currentToken.type = .TRUE by rw [hcur]; decide),
        if_pos (show s.currentToken.type = .FALSE by rw [hcur])]
      simp only [heat]
  | atomParen h1 ih1 =>
    intro s u ur r' hAt
    obtain ⟨hInv, hro, hcur, hrem⟩ := hAt
    obtain ⟨t, tr, rfl, hht⟩ := imply_first h1
    have hro1 : ReadsOne s.lexer.rem t
        (tokensChars (tr ++ [Token.mk .RPAREN ")"]) ++ ur) := by
      rw [hrem, show tokensChars ((t :: tr) ++ [Token.mk .RPAREN ")"]) ++ ur =
        tokChars t.type ++ (tokensChars (tr ++ [Token.mk .RPAREN ")"]) ++ ur) by
          simp [tokensChars]]
      exact readsOne_head hht _
    obtain ⟨l', heat, hi', hr'⟩ := eat_at (show _ = TokType.LPAREN by rw [hcur])
      hInv hro1
    have hAt1 : At { s with lexer := l', currentToken := t } (t :: tr)
        (Token.mk .RPAREN ")") (')' :: ur) ur := by
      refine ⟨hi', ReadsOne.rp ur, rfl, ?_⟩
      rw [hr', tokensChars_append]
      simp [tokensChars, tokChars]
    obtain ⟨s2, bv, ⟨N2, hrun2⟩, ⟨hi2, hcur2, hrem2⟩, hstk2⟩ :=
      ih1 _ _ _ _ hAt1 (.inr rfl)
    obtain ⟨l3, heat3, hi3, hr3⟩ := eat_at (show _ = TokType.RPAREN by rw [hcur2])
      hi2 (by rw [hrem2]; exact hro)
    refine ⟨{ s2 with lexer := l3, currentToken := u }, bv, ⟨N2 + 1, ?_⟩,
      ⟨hi3, rfl, hr3⟩, hstk2⟩
    intro f hf
    cases f with
    | zero => omega
    | succ m =>
      simp only [atomF]
      rw [if_neg (show ¬ s.currentToken.type = .TRUE by rw [hcur]; decide),
        if_neg (show ¬ s.currentToken.type = .FALSE by rw [hcur]; decide),
        if_pos (show s.currentToken.type = .LPAREN by rw [hcur])]
      simp only [heat]
      simp only [hrun2 m (by omega)]
      rw [if_pos trivial]
      rw [if_pos (show s2.currentToken.type = .RPAREN by rw [hcur2])]
      simp only [heat3]
  | litAtom h1 ih1 =>
    intro s u ur r' hAt
    obtain ⟨t, tr, rfl, hht⟩ := atom_first h1
    obtain ⟨s1, bv, ⟨N1, hrun1⟩, hdone, hstk⟩ := ih1 s u ur r' hAt
    obtain ⟨hInv, hro, hcur, hrem⟩ := hAt
    refine ⟨s1, bv, ⟨N1 + 1, ?_⟩, hdone, hstk⟩
    intro f hf
    cases f with
    | zero => omega
    | succ m =>
      simp only [literalF]
      rw [if_neg (show ¬ s.currentToken.type = .NOT by
        rw [hcur]; rcases hht with rfl | rfl | rfl <;> decide)]
      simp only [hrun1 m (by omega)]
      rw [if_pos trivial]
  | litNot h1 ih1 =>
    intro s u ur r' hAt
    obtain ⟨hInv, hro, hcur, hrem⟩ := hAt
    obtain ⟨t, tr, rfl, hht⟩ := lit_first h1
    have hro1 : ReadsOne s.lexer.rem t (tokensChars tr ++ ur) := by
      rw [hrem, show tokensChars (t :: tr) ++ ur =
        tokChars t.type ++ (tokensChars tr ++ ur) by simp [tokensChars]]
      exact readsOne_head hht _
    obtain ⟨l', heat, hi', hr'⟩ := eat_at (show _ = TokType.NOT by rw [hcur])
      hInv hro1
    have hAt1 : At { s with lexer := l', currentToken := t } (t :: tr)
        u ur r' := ⟨hi', hro, rfl, by rw [hr']⟩
    obtain ⟨s2, bv, ⟨N2, hrun2⟩, ⟨hi2, hcur2, hrem2⟩, hstk2⟩ :=
      ih1 _ u ur r' hAt1
    have hpop : spop (emit (.notC s2.stack.length) s2) =
        .ok (bv, { emit (.notC s2.stack.length) s2 with stack := s.stack }) :=
      spop_cons (show s2.stack = bv :: s.stack from hstk2)
    refine ⟨spush (!bv)
        { emit (.notC s2.stack.length) s2 with stack := s.stack }, !bv,
      ⟨N2 + 1, ?_⟩, ⟨hi2, hcur2, hrem2⟩, rfl⟩
    intro f hf
    cases f with
    | zero => omega
    | succ m =>
      simp only [literalF]
      rw [if_pos (show s.currentToken.type = .NOT by rw [hcur])]
      simp only [heat]
      simp only [hrun2 m (by omega)]
      rw [if_pos trivial]
      simp only [hpop]
  | andTailEps =>
    intro s u ur r' a S hAt hFol hstk
    obtain ⟨hInv, hro, hcur, hrem⟩ := hAt
    refine ⟨s, a, ⟨1, ?_⟩, ⟨hInv, hcur, hrem⟩, hstk⟩
    intro f hf
    cases f with
    | zero => omega
    | succ m =>
      simp only [andTailF]
      rw [if_neg ?hne, if_pos ?hsel]
      case hne =>
        intro hand
        rw [hcur] at hand
        rcases hFol with hf1 | hf1 | hf1 | hf1 <;> (rw [hf1] at hand; cases hand)
      case hsel =>
        rw [hcur]
        rcases hFol with hf1 | hf1 | hf1 | hf1
        · exact .inr (.inr (.inl hf1))
        · exact .inr (.inr (.inr hf1))
        · exact .inl hf1
        · exact .inr (.inl hf1)
  | orTailEps =>
    intro s u ur r' a S hAt hFol hstk
    obtain ⟨hInv, hro, hcur, hrem⟩ := hAt
    refine ⟨s, a, ⟨1, ?_⟩, ⟨hInv, hcur, hrem⟩, hstk⟩
    intro f hf
    cases f with
    | zero => omega
    | succ m =>
      simp only [orTailF]
      rw [if_neg ?hne, if_pos ?hsel]
      case hne =>
        intro hand
        rw [hcur] at hand
        rcases hFol with hf1 | hf1 | hf1 <;> (rw [hf1] at hand; cases hand)
      case hsel =>
        rw [hcur]
        exact hFol
  | implyTailEps =>
    intro s u ur r' a S hAt hFol hstk
    obtain ⟨hInv, hro, hcur, hrem⟩ := hAt
    refine ⟨s, a, ⟨1, ?_⟩, ⟨hInv, hcur, hrem⟩, hstk⟩
    intro f hf
    cases f with
    | zero => omega
    | succ m =>
      simp only [implyTailF]
      rw [if_neg ?hne, if_pos ?hsel]
      case hne =>
        intro hand
        rw [hcur] at hand
        rcases hFol with hf1 | hf1 <;> (rw [hf1] at hand; cases hand)
      case hsel =>
        rw [hcur]
        exact hFol
  | andE h1 h2 ih1 ih2 =>
    rename_i ts1 ts2
    intro s u ur r' hAt hFol
    obtain ⟨t, tr, rfl, hht⟩ := lit_first h1
    obtain ⟨hInv, hro, hcur, hrem⟩ := hAt
    have hshape : ts2 = [] ∨ ∃ t2 tr2, ts2 = t2 :: tr2 ∧
        (∀ rest, ReadsOne (tokChars t2.type ++ rest) t2 rest) ∧ True := by
      rcases andTail_shape h2 with hsh | ⟨tr2, hsh⟩
      · exact .inl hsh
      · exact .inr ⟨_, tr2, hsh, fun rest => ReadsOne.conj rest, trivial⟩
    obtain ⟨u2, r2, hro2, -, hnext⟩ :=
      next_config (fun _ => True) hro trivial hshape
    have hAt1 : At s (t :: tr) u2 (tokensChars ts2 ++ ur) r2 := by
      refine ⟨hInv, hro2, hcur, ?_⟩
      rw [hrem]
      simp [tokensChars_append, List.append_assoc]
    obtain ⟨s1, bv1, ⟨N1, hrun1⟩, ⟨hi1, hcur1, hrem1⟩, hstk1⟩ :=
      ih1 s u2 _ r2 hAt1
    have hAt2 : At s1 ts2 u ur r' := hnext s1 hi1 hcur1 hrem1
    obtain ⟨s2, bv, ⟨N2, hrun2⟩, hdone2, hstk2⟩ :=
      ih2 s1 u ur r' bv1 s.stack hAt2 hFol hstk1
    refine ⟨s2, bv, ⟨N1 + N2 + 1, ?_⟩, hdone2, hstk2⟩
    intro f hf
    cases f with
    | zero => omega
    | succ m =>
      simp only [andTermF]
      simp only [hrun1 m (by omega)]
      rw [if_pos trivial]
      simp only [hrun2 m (by omega)]
  | orE h1 h2 ih1 ih2 =>
    rename_i ts1 ts2
    intro s u ur r' hAt hFol
    obtain ⟨t, tr, rfl, hht⟩ := and_first h1
    obtain ⟨hInv, hro, hcur, hrem⟩ := hAt
    have hshape : ts2 = [] ∨ ∃ t2 tr2, ts2 = t2 :: tr2 ∧
        (∀ rest, ReadsOne (tokChars t2.type ++ rest) t2 rest) ∧ FollowAnd t2 := by
      rcases orTail_shape h2 with hsh | ⟨tr2, hsh⟩
      · exact .inl hsh
      · exact .inr ⟨_, tr2, hsh, fun rest => ReadsOne.disj rest, .inl rfl⟩
    obtain ⟨u2, r2, hro2, hFol2, hnext⟩ :=
      next_config FollowAnd hro (followAnd_of_followOr hFol) hshape
    have hAt1 : At s (t :: tr) u2 (tokensChars ts2 ++ ur) r2 := by
      refine ⟨hInv, hro2, hcur, ?_⟩
      rw [hrem]
      simp [tokensChars_append, List.append_assoc]
    obtain ⟨s1, bv1, ⟨N1, hrun1⟩, ⟨hi1, hcur1, hrem1⟩, hstk1⟩ :=
      ih1 s u2 _ r2 hAt1 hFol2
    have hAt2 : At s1 ts2 u ur r' := hnext s1 hi1 hcur1 hrem1
    obtain ⟨s2, bv, ⟨N2, hrun2⟩, hdone2, hstk2⟩ :=
      ih2 s1 u ur r' bv1 s.stack hAt2 hFol hstk1
    refine ⟨s2, bv, ⟨N1 + N2 + 1, ?_⟩, hdone2, hstk2⟩
    intro f hf
    cases f with
    | zero => omega
    | succ m =>
      simp only [orTermF]
      simp only [hrun1 m (by omega)]
      rw [if_pos trivial]
      simp only [hrun2 m (by omega)]
  | imply h1 h2 ih1 ih2 =>
    rename_i ts1 ts2
    intro s u ur r' hAt hFol
    obtain ⟨t, tr, rfl, hht⟩ := or_first h1
    obtain ⟨hInv, hro, hcur, hrem⟩ := hAt
    have hshape : ts2 = [] ∨ ∃ t2 tr2, ts2 = t2 :: tr2 ∧
        (∀ rest, ReadsOne (tokChars t2.type ++ rest) t2 rest) ∧ FollowOr t2 := by
      rcases implyTail_shape h2 with hsh | ⟨tr2, hsh⟩
      · exact .inl hsh
      · exact .inr ⟨_, tr2, hsh, fun rest => ReadsOne.impl rest, .inl rfl⟩
    obtain ⟨u2, r2, hro2, hFol2, hnext⟩ :=
      next_config FollowOr hro (followOr_of_followImply hFol) hshape
    have hAt1 : At s (t :: tr) u2 (tokensChars ts2 ++ ur) r2 := by
      refine ⟨hInv, hro2, hcur, ?_⟩
      rw [hrem]
      simp [tokensChars_append, List.append_assoc]
    obtain ⟨s1, bv1, ⟨N1, hrun1⟩, ⟨hi1, hcur1, hrem1⟩, hstk1⟩ :=
      ih1 s u2 _ r2 hAt1 hFol2
    have hAt2 : At s1 ts2 u ur r' := hnext s1 hi1 hcur1 hrem1
    obtain ⟨s2, bv, ⟨N2, hrun2⟩, hdone2, hstk2⟩ :=
      ih2 s1 u ur r' bv1 s.stack hAt2 hFol hstk1
    refine ⟨s2, bv, ⟨N1 + N2 + 1, ?_⟩, hdone2, hstk2⟩
    intro f hf
    cases f with
    | zero => omega
    | succ m =>
      simp only [implyTermF]
      simp only [hrun1 m (by omega)]
      rw [if_pos trivial]
      simp only [hrun2 m (by omega)]
  | andTailStep h1 h2 ih1 ih2 =>
    rename_i ts1 ts2
    intro s u ur r' a S hAt hFol hstk
    obtain ⟨hInv, hro, hcur, hrem⟩ := hAt
    obtain ⟨t, tr, rfl, hht⟩ := lit_first h1
    have hshape : ts2 = [] ∨ ∃ t2 tr2, ts2 = t2 :: tr2 ∧
        (∀ rest, ReadsOne (tokChars t2.type ++ rest) t2 rest) ∧ True := by
      rcases andTail_shape h2 with hsh | ⟨tr2, hsh⟩
      · exact .inl hsh
      · exact .inr ⟨_, tr2, hsh, fun rest => ReadsOne.conj rest, trivial⟩
    obtain ⟨u2, r2, hro2, -, hnext⟩ :=
      next_config (fun _ => True) hro trivial hshape
    have hroT : ReadsOne s.lexer.rem t
        (tokensChars tr ++ (tokensChars ts2 ++ ur)) := by
      rw [hrem, show tokensChars ((t :: tr) ++ ts2) ++ ur =
        tokChars t.type ++ (tokensChars tr ++ (tokensChars ts2 ++ ur)) by
          simp [tokensChars_append, tokensChars, List.append_assoc]]
      exact readsOne_head hht _
    obtain ⟨l', heat, hi', hr'⟩ := eat_at (show _ = TokType.AND by rw [hcur])
      hInv hroT
    have hAt1 : At { s with lexer := l', currentToken := t } (t :: tr) u2
        (tokensChars ts2 ++ ur) r2 := ⟨hi', hro2, rfl, by rw [hr']⟩
    obtain ⟨s2, bv1, ⟨N1, hrun1⟩, ⟨hi2, hcur2, hrem2⟩, hstk2⟩ :=
      ih1 _ u2 _ r2 hAt1
    have hstk2x : s2.stack = bv1 :: (a :: S) := by
      rw [hstk2]
      show bv1 :: s.stack = _
      rw [hstk]
    have hpop : spop (emit (.andC s2.stack.length) s2) =
        .ok (bv1, { emit (.andC s2.stack.length) s2 with stack := a :: S }) :=
      spop_cons hstk2x
    have hpop2 : spop { emit (.andC s2.stack.length) s2 with stack := a :: S } =
        .ok (a, { emit (.andC s2.stack.length) s2 with stack := S }) :=
      spop_cons rfl
    have hAt5 : At (spush (a && bv1)
        { emit (.andC s2.stack.length) s2 with stack := S }) ts2 u ur r' :=
      hnext _ hi2 hcur2 hrem2
    obtain ⟨s6, bv, ⟨N2, hrun2⟩, hdone, hstk6⟩ :=
      ih2 _ u ur r' (a && bv1) S hAt5 hFol rfl
    refine ⟨s6, bv, ⟨N1 + N2 + 1, ?_⟩, hdone, hstk6⟩
    intro f hf
    cases f with
    | zero => omega
    | succ m =>
      simp only [andTailF]
      rw [if_pos (show s.currentToken.type = .AND by rw [hcur])]
      simp only [heat]
      simp only [hrun1 m (by omega)]
      rw [if_pos trivial]
      simp only [hpop]
      simp only [hpop2]
      simp only [hrun2 m (by omega)]
  | orTailStep h1 h2 ih1 ih2 =>
    rename_i ts1 ts2
    intro s u ur r' a S hAt hFol hstk
    obtain ⟨hInv, hro, hcur, hrem⟩ := hAt
    obtain ⟨t, tr, rfl, hht⟩ := and_first h1
    have hshape : ts2 = [] ∨ ∃ t2 tr2, ts2 = t2 :: tr2 ∧
        (∀ rest, ReadsOne (tokChars t2.type ++ rest) t2 rest) ∧ FollowAnd t2 := by
      rcases orTail_shape h2 with hsh | ⟨tr2, hsh⟩
      · exact .inl hsh
      · exact .inr ⟨_, tr2, hsh, fun rest => ReadsOne.disj rest, .inl rfl⟩
    obtain ⟨u2, r2, hro2, hFol2, hnext⟩ :=
      next_config FollowAnd hro (followAnd_of_followOr hFol) hshape
    have hroT : ReadsOne s.lexer.rem t
        (tokensChars tr ++ (tokensChars ts2 ++ ur)) := by
      rw [hrem, show tokensChars ((t :: tr) ++ ts2) ++ ur =
        tokChars t.type ++ (tokensChars tr ++ (tokensChars ts2 ++ ur)) by
          simp [tokensChars_append, tokensChars, List.append_assoc]]
      exact readsOne_head hht _
    obtain ⟨l', heat, hi', hr'⟩ := eat_at (show _ = TokType.OR by rw [hcur])
      hInv hroT
    have hAt1 : At { s with lexer := l', currentToken := t } (t :: tr) u2
        (tokensChars ts2 ++ ur) r2 := ⟨hi', hro2, rfl, by rw [hr']⟩
    obtain ⟨s2, bv1, ⟨N1, hrun1⟩, ⟨hi2, hcur2, hrem2⟩, hstk2⟩ :=
      ih1 _ u2 _ r2 hAt1 hFol2
    have hstk2x : s2.stack = bv1 :: (a :: S) := by
      rw [hstk2]
      show bv1 :: s.stack = _
      rw [hstk]
    have hAt2 : At s2 ts2 u ur r' := hnext s2 hi2 hcur2 hrem2
    obtain ⟨s3, bv2, ⟨N2, hrun2⟩, ⟨hi3, hcur3, hrem3⟩, hstk3⟩ :=
      ih2 s2 u ur r' bv1 (a :: S) hAt2 hFol hstk2x
    have hpop : spop (emit (.orC s3.stack.length) s3) =
        .ok (bv2, { emit (.orC s3.stack.length) s3 with stack := a :: S }) :=
      spop_cons hstk3
    have hpop2 : spop { emit (.orC s3.stack.length) s3 with stack := a :: S } =
        .ok (a, { emit (.orC s3.stack.length) s3 with stack := S }) :=
      spop_cons rfl
    refine ⟨spush (a || bv2)
        { emit (.orC s3.stack.length) s3 with stack := S }, a || bv2,
      ⟨N1 + N2 + 1, ?_⟩, ⟨hi3, hcur3, hrem3⟩, rfl⟩
    intro f hf
    cases f with
    | zero => omega
    | succ m =>
      simp only [orTailF]
      rw [if_pos (show s.currentToken.type = .OR by rw [hcur])]
      simp only [heat]
      simp only [hrun1 m (by omega)]
      rw [if_pos trivial]
      simp only [hrun2 m (by omega)]
      rw [if_pos trivial]
      simp only [hpop]
      simp only [hpop2]
  | implyTailStep h1 h2 ih1 ih2 =>
    rename_i ts1 ts2
    intro s u ur r' a S hAt hFol hstk
    obtain ⟨hInv, hro, hcur, hrem⟩ := hAt
    obtain ⟨t, tr, rfl, hht⟩ := or_first h1
    have hshape : ts2 = [] ∨ ∃ t2 tr2, ts2 = t2 :: tr2 ∧
        (∀ rest, ReadsOne (tokChars t2.type ++ rest) t2 rest) ∧ FollowOr t2 := by
      rcases implyTail_shape h2 with hsh | ⟨tr2, hsh⟩
      · exact .inl hsh
      · exact .inr ⟨_, tr2, hsh, fun rest => ReadsOne.impl rest, .inl rfl⟩
    obtain ⟨u2, r2, hro2, hFol2, hnext⟩ :=
      next_config FollowOr hro (followOr_of_followImply hFol) hshape
    have hroT : ReadsOne s.lexer.rem t
        (tokensChars tr ++ (tokensChars ts2 ++ ur)) := by
      rw [hrem, show tokensChars ((t :: tr) ++ ts2) ++ ur =
        tokChars t.type ++ (tokensChars tr ++ (tokensChars ts2 ++ ur)) by
          simp [tokensChars_append, tokensChars, List.append_assoc]]
      exact readsOne_head hht _
    obtain ⟨l', heat, hi', hr'⟩ := eat_at (show _ = TokType.IMPLY by rw [hcur])
      hInv hroT
    have hAt1 : At { s with lexer := l', currentToken := t } (t :: tr) u2
        (tokensChars ts2 ++ ur) r2 := ⟨hi', hro2, rfl, by rw [hr']⟩
    obtain ⟨s2, bv1, ⟨N1, hrun1⟩, ⟨hi2, hcur2, hrem2⟩, hstk2⟩ :=
      ih1 _ u2 _ r2 hAt1 hFol2
    have hstk2x : s2.stack = bv1 :: (a :: S) := by
      rw [hstk2]
      show bv1 :: s.stack = _
      rw [hstk]
    have hAt2 : At s2 ts2 u ur r' := hnext s2 hi2 hcur2 hrem2
    obtain ⟨s3, bv2, ⟨N2, hrun2⟩, ⟨hi3, hcur3, hrem3⟩, hstk3⟩ :=
      ih2 s2 u ur r' bv1 (a :: S) hAt2 hFol hstk2x
    have hpop : spop (emit (.impC s3.stack.length) s3) =
        .ok (bv2, { emit (.impC s3.stack.length) s3 with stack := a :: S }) :=
      spop_cons hstk3
    have hpop2 : spop { emit (.impC s3.stack.length) s3 with stack := a :: S } =
        .ok (a, { emit (.impC s3.stack.length) s3 with stack := S }) :=
      spop_cons rfl
    refine ⟨spush ((!a) || bv2)
        { emit (.impC s3.stack.length) s3 with stack := S }, (!a) || bv2,
      ⟨N1 + N2 + 1, ?_⟩, ⟨hi3, hcur3, hrem3⟩, rfl⟩
    intro f hf
    cases f with
    | zero => omega
    | succ m =>
      simp only [implyTailF]
      rw [if_pos (show s.currentToken.type = .IMPLY by rw [hcur])]
      simp only [heat]
      simp only [hrun1 m (by omega)]
      rw [if_pos trivial]
      simp only [hrun2 m (by omega)]
      rw [if_pos trivial]
      simp only [hpop]
      simp only [hpop2]

/-- Whole-pipeline completeness: every token sequence derivable from the
grammar start symbol, rendered to text and terminated with `.`, evaluates to
a one-element stack. -/
theorem eval_complete {ts : List Token} (h : Deriv .imply ts) :
    ∃ N b, ∀ f, N ≤ f →
      evaluateF f (tokensChars ts ++ ['.']) = .ok (some [b]) := by
  obtain ⟨t, tr, rfl, hht⟩ := imply_first h
  obtain ⟨c, cs, hlist⟩ : ∃ c cs, tokensChars (t :: tr) ++ ['.'] = c :: cs := by
    rcases hht with rfl | rfl | rfl | rfl <;> exact ⟨_, _, rfl⟩
  have hInv0 : Inv (Lexer.mk (c :: cs) 0 (some c)) :=
    ⟨Nat.zero_le _, List.getElem?_cons_zero.symm⟩
  have hrem0 : (Lexer.mk (c :: cs) 0 (some c)).rem =
      tokChars t.type ++ (tokensChars tr ++ ['.']) := by
    show c :: cs = _
    rw [← hlist]
    simp [tokensChars]
  obtain ⟨l1, hg, hi1, hr1⟩ := gnt_readsOne hInv0 hrem0 (readsOne_head hht _)
  have hii : interpInit (Lexer.mk (c :: cs) 0 (some c)) =
      .ok (PState.mk l1 t [] []) := by
    unfold interpInit
    simp only [hg]
  have hAt0 : At (PState.mk l1 t [] []) (t :: tr) (Token.mk .EOF ".")
      ('.' :: []) ('.' :: []) := ⟨hi1, ReadsOne.dot [], rfl, hr1⟩
  obtain ⟨s2, bv, ⟨N, hrun⟩, ⟨hi2, hcur2, hrem2⟩, hstk2⟩ :=
    deriv_complete h _ _ _ _ hAt0 (.inl rfl)
  refine ⟨N + 2, bv, ?_⟩
  intro f hf
  rw [hlist]
  cases f with
  | zero => omega
  | succ m =>
    show (match Lexer.init (c :: cs) with
      | .error e => Except.error e
      | .ok l =>
        match interpInit l with
        | .error e => Except.error e
        | .ok s => evalF (m + 1) s) = .ok (some [bv])
    simp only [Lexer.init]
    simp only [hii]
    unfold evalF
    cases m with
    | zero => omega
    | succ m2 =>
      simp only [boolStmtF]
      simp only [hrun (m2 + 1) (by omega)]
      rw [if_pos trivial]
      rw [if_pos (show s2.currentToken.type = .EOF by rw [hcur2])]
      show (if (true : Bool) = true then Except.ok (some s2.stack)
        else Except.ok none) = Except.ok (some [bv])
      rw [if_pos rfl, hstk2]

end Completeness

section ClaimC1

/-- C1: for every well-formed formula (a token sequence derivable from the
spec grammar's start symbol `ImplyExpr`), evaluating its source text followed
by the terminator `.` raises nothing and ends with the evaluation stack
holding exactly one boolean. -/
theorem c1_wellformed_no_raise (ts : List Token) (h : Deriv .imply ts) :
    ∃ N b, ∀ f, N ≤ f →
      evaluateF f (tokensChars ts ++ ['.']) = .ok (some [b]) :=
  eval_complete h

/-- Witness for C1 at the concrete formula `T.`. -/
theorem c1_witness :
    ∃ N b, ∀ f, N ≤ f →
      evaluateF f (tokensChars [Token.mk .TRUE "T"] ++ ['.']) =
        .ok (some [b]) :=
  c1_wellformed_no_raise [Token.mk .TRUE "T"]
    (by
      have hd := Deriv.imply
        (Deriv.orE (Deriv.andE (Deriv.litAtom Deriv.atomTrue)
          Deriv.andTailEps) Deriv.orTailEps)
        Deriv.implyTailEps
      simpa using hd)

end ClaimC1

section ClaimC2

/-- C2 amended: for every well-formed input the evaluator returns the final
one-element stack (Python renders it as `str(self.stack)`) holding the
formula's boolean value; every failure is one of the structured Python
exceptions carrying a descriptive message (never the fuel artifact of the
embedding), e.g. `T & F.` raises the invalid-character error citing `&`;
but when `ImplyExpr` reduces successfully and the terminal check sees a
non-`EOF` token — e.g. on `T).` — `eval` returns Python `None`, which is
neither a boolean result nor an error. -/
theorem c2_eval_result_kinds :
    (∀ ts, Deriv .imply ts → ∃ N b, ∀ f, N ≤ f →
        evaluateF f (tokensChars ts ++ ['.']) = .ok (some [b])) ∧
      (∀ text e, evaluate text = .error e → e ≠ .noFuel) ∧
      evaluate "T & F.".toList = .error (.invalidChar (some "&")) ∧
      evaluate "T).".toList = .ok none :=
  ⟨fun _ h => eval_complete h,
    fun text e he hne => evaluate_ne_noFuel text (hne ▸ he),
    rfl, rfl⟩

/-- Witness for C2 at the concrete runs `F.`, `T & F.` and `T).`. -/
theorem c2_witness :
    (∃ N b, ∀ f, N ≤ f →
      evaluateF f (tokensChars [Token.mk .FALSE "F"] ++ ['.']) =
        .ok (some [b])) ∧
      PErr.invalidChar (some "&") ≠ PErr.noFuel ∧
      evaluate "T & F.".toList = .error (.invalidChar (some "&")) ∧
      evaluate "T).".toList = .ok none :=
  ⟨c2_eval_result_kinds.1 [Token.mk .FALSE "F"]
    (by
      have hd := Deriv.imply
        (Deriv.orE (Deriv.andE (Deriv.litAtom Deriv.atomFalse)
          Deriv.andTailEps) Deriv.orTailEps)
        Deriv.implyTailEps
      simpa using hd),
    c2_eval_result_kinds.2.1 "T & F.".toList (.invalidChar (some "&"))
      c2_eval_result_kinds.2.2.1,
    c2_eval_result_kinds.2.2.1,
    c2_eval_result_kinds.2.2.2⟩

end ClaimC2

end BoolInterp
